import Mathlib

/-!
Verification of the key-space browsing subsystem of redis-explorer
(internal/ui/keys.go), shallow-embedded in Lean.

Strings are modelled as lists of characters (Go strings under a single-character
delimiter; the program only ever uses the delimiter ":").  Pure functions of the
source (filterKeys, addKeyToTree, buildKeyTree, countKeysInNode, GetSelectedKey,
setScopeFromSelection, deleteSelectedKey) are translated directly; the
asynchronous load coordinator (loadKeysInternal plus its completion closure) is
embedded as a step function on an explicit browser state with ghost counters for
spawned fetches, snapshot generations, error dialogs and recomputations.
-/

abbrev Str := List Char

/-- KeyRecord of the source: models.RedisKey with key, type and ttl. -/
structure RedisKey where
  key : Str
  type : String
  ttl : Int
deriving DecidableEq

/-- Go strings.Split for a single-character separator: splits on every
occurrence of the character, so the result is always a nonempty list of
separator-free segments. -/
def splitOnChar (d : Char) : Str → List Str
  | [] => [[]]
  | c :: cs =>
    match splitOnChar d cs with
    | [] => [[c]]
    | p :: ps => if c = d then [] :: p :: ps else (c :: p) :: ps

/-- Go strings.Join with a single-character separator. -/
def intercalateChar (d : Char) : List Str → Str
  | [] => []
  | [p] => p
  | p :: q :: ps => p ++ d :: intercalateChar d (q :: ps)

theorem splitOnChar_cons_eq (d c : Char) (cs : Str) (p : Str) (ps : List Str)
    (h : splitOnChar d cs = p :: ps) :
    splitOnChar d (c :: cs) = if c = d then [] :: p :: ps else (c :: p) :: ps := by
  unfold splitOnChar
  rw [h]

theorem splitOnChar_ne_nil (d : Char) (s : Str) : splitOnChar d s ≠ [] := by
  induction s with
  | nil => simp [splitOnChar]
  | cons c cs ih =>
    rcases h : splitOnChar d cs with _ | ⟨p, ps⟩
    · exact absurd h ih
    · rw [splitOnChar_cons_eq d c cs p ps h]
      split <;> simp

theorem exists_splitOnChar (d : Char) (cs : Str) :
    ∃ p ps, splitOnChar d cs = p :: ps := by
  rcases h : splitOnChar d cs with _ | ⟨p, ps⟩
  · exact absurd h (splitOnChar_ne_nil d cs)
  · exact ⟨p, ps, rfl⟩

theorem intercalateChar_cons (d : Char) (p : Str) (ps : List Str) (h : ps ≠ []) :
    intercalateChar d (p :: ps) = p ++ d :: intercalateChar d ps := by
  cases ps with
  | nil => exact absurd rfl h
  | cons q ps => rfl

/-- Join after split is the identity (as for Go Split/Join with a nonempty
separator). -/
theorem intercalateChar_splitOnChar (d : Char) (s : Str) :
    intercalateChar d (splitOnChar d s) = s := by
  induction s with
  | nil => rfl
  | cons c cs ih =>
    obtain ⟨p, ps, h⟩ := exists_splitOnChar d cs
    rw [splitOnChar_cons_eq d c cs p ps h]
    rw [h] at ih
    by_cases hc : c = d
    · rw [if_pos hc, intercalateChar_cons d [] (p :: ps) (by simp)]
      simp [ih, hc]
    · rw [if_neg hc]
      cases ps with
      | nil =>
        have hp : p = cs := ih
        show c :: p = c :: cs
        rw [hp]
      | cons q qs =>
        rw [intercalateChar_cons d (c :: p) (q :: qs) (by simp)]
        rw [intercalateChar_cons d p (q :: qs) (by simp)] at ih
        simpa using ih

/-- Every segment produced by `splitOnChar` is free of the separator. -/
theorem mem_splitOnChar_d_free (d : Char) (s : Str) :
    ∀ a ∈ splitOnChar d s, d ∉ a := by
  induction s with
  | nil => intro a ha; simp [splitOnChar] at ha; simp [ha]
  | cons c cs ih =>
    intro a ha
    obtain ⟨p, ps, h⟩ := exists_splitOnChar d cs
    rw [splitOnChar_cons_eq d c cs p ps h] at ha
    rw [h] at ih
    by_cases hc : c = d
    · rw [if_pos hc] at ha
      rcases List.mem_cons.mp ha with h1 | h1
      · simp [h1]
      · exact ih a h1
    · rw [if_neg hc] at ha
      rcases List.mem_cons.mp ha with h1 | h1
      · subst h1
        intro hd
        rcases List.mem_cons.mp hd with h2 | h2
        · exact hc h2.symm
        · exact ih p (by simp) h2
      · exact ih a (List.mem_cons_of_mem p h1)

theorem splitOnChar_d_free (d : Char) (s : Str) (hfree : d ∉ s) :
    splitOnChar d s = [s] := by
  induction s with
  | nil => rfl
  | cons c cs ih =>
    have hc : c ≠ d := fun h => hfree (by simp [h])
    have hcs : d ∉ cs := fun h => hfree (List.mem_cons_of_mem c h)
    rw [splitOnChar_cons_eq d c cs cs [] (ih hcs), if_neg hc]

theorem splitOnChar_append_cons (d : Char) (p s : Str) (hfree : d ∉ p) :
    splitOnChar d (p ++ d :: s) = p :: splitOnChar d s := by
  induction p with
  | nil =>
    obtain ⟨q, qs, h⟩ := exists_splitOnChar d s
    rw [List.nil_append, splitOnChar_cons_eq d d s q qs h, if_pos rfl, h]
  | cons c p ih =>
    have hc : c ≠ d := fun h => hfree (by simp [h])
    have hp : d ∉ p := fun h => hfree (List.mem_cons_of_mem c h)
    rcases hq : splitOnChar d s with _ | ⟨q, qs⟩
    · exact absurd hq (splitOnChar_ne_nil d s)
    · have hrec : splitOnChar d (p ++ d :: s) = p :: q :: qs := by
        rw [ih hp, hq]
      rw [List.cons_append, splitOnChar_cons_eq d c _ p (q :: qs) hrec, if_neg hc]

/-- Split after join is the identity on nonempty lists of separator-free
segments.  This makes `intercalateChar d` injective there. -/
theorem splitOnChar_intercalateChar (d : Char) :
    ∀ ps : List Str, ps ≠ [] → (∀ a ∈ ps, d ∉ a) →
      splitOnChar d (intercalateChar d ps) = ps := by
  intro ps
  induction ps with
  | nil => intro h; exact absurd rfl h
  | cons p ps ih =>
    intro _ hfree
    cases ps with
    | nil => exact splitOnChar_d_free d p (hfree p (by simp))
    | cons q qs =>
      rw [intercalateChar_cons d p (q :: qs) (by simp)]
      rw [splitOnChar_append_cons d p _ (hfree p (by simp))]
      rw [ih (by simp) (fun a ha => hfree a (List.mem_cons_of_mem p ha))]

theorem intercalateChar_injOn (d : Char) (p1 p2 : List Str)
    (h1 : p1 ≠ []) (h2 : p2 ≠ []) (hf1 : ∀ a ∈ p1, d ∉ a) (hf2 : ∀ a ∈ p2, d ∉ a)
    (heq : intercalateChar d p1 = intercalateChar d p2) : p1 = p2 := by
  have e1 := splitOnChar_intercalateChar d p1 h1 hf1
  have e2 := splitOnChar_intercalateChar d p2 h2 hf2
  rw [← e1, ← e2, heq]

theorem intercalateChar_concat (d : Char) (xs : List Str) (y : Str) (h : xs ≠ []) :
    intercalateChar d (xs ++ [y]) = intercalateChar d xs ++ d :: y := by
  induction xs with
  | nil => exact absurd rfl h
  | cons x xs ih =>
    cases xs with
    | nil => rfl
    | cons x2 xs2 =>
      rw [List.cons_append,
          intercalateChar_cons d x ((x2 :: xs2) ++ [y]) (by simp),
          intercalateChar_cons d x (x2 :: xs2) (by simp), ih (by simp)]
      simp

theorem intercalateChar_ne_nil (d : Char) (ps : List Str)
    (hne : ps ≠ []) (hh : ps.head? ≠ some ([] : Str)) :
    intercalateChar d ps ≠ [] := by
  cases ps with
  | nil => exact absurd rfl hne
  | cons p ps =>
    cases ps with
    | nil =>
      simp only [List.head?] at hh
      intro h
      exact hh (by simp [intercalateChar] at h; simp [h])
    | cons q qs =>
      rw [intercalateChar_cons d p (q :: qs) (by simp)]
      cases p <;> simp

theorem splitOnChar_head_ne_nil (d : Char) (k : Str)
    (hne : k ≠ []) (hh : k.head? ≠ some d) :
    (splitOnChar d k).head? ≠ some ([] : Str) := by
  cases k with
  | nil => exact absurd rfl hne
  | cons c cs =>
    have hc : c ≠ d := by simpa [List.head?] using hh
    obtain ⟨p, ps, h⟩ := exists_splitOnChar d cs
    rw [splitOnChar_cons_eq d c cs p ps h, if_neg hc]
    simp [List.head?]

/-! ## The filter engine (filterKeys, keys.go lines 531-578) -/

/-- Go strings.ToLower, character by character. -/
def lowerStr (s : Str) : Str := s.map Char.toLower

/-- Go strings.Contains: the needle occurs as a contiguous substring. -/
def containsSub (needle hay : Str) : Bool :=
  hay.tails.any (fun t => needle.isPrefixOf t)

/-- FilterState of the spec: scope prefix, type filter (the widget string,
"All Types" meaning no restriction) and the raw search entry text. -/
structure FilterState where
  scope : Str
  typeFilterSel : String
  searchText : Str
deriving DecidableEq

/-- One key record passes the three guards of filterKeys.  This mirrors the
source loop: each `if ... continue` becomes a `false` branch. -/
def keyMatches (d : Char) (fs : FilterState) (r : RedisKey) : Bool :=
  let pattern : Str := lowerStr fs.searchText
  if fs.scope ≠ [] ∧ ¬ (fs.scope ++ [d]) <+: r.key ∧ r.key ≠ fs.scope then false
  else if fs.typeFilterSel ≠ "" ∧ fs.typeFilterSel ≠ "All Types" ∧
      r.type ≠ fs.typeFilterSel then false
  else if pattern ≠ [] ∧ containsSub pattern (lowerStr r.key) = false then false
  else true

/-- filterKeys: the filtered view computed from a snapshot. -/
def filterKeys (d : Char) (fs : FilterState) (keys : List RedisKey) : List RedisKey :=
  keys.filter (keyMatches d fs)

/-- Scope predicate in the words of the spec: scope empty, or the key equals
the scope, or the key starts with scope + delimiter. -/
def specScopeOk (d : Char) (scope k : Str) : Bool :=
  decide (scope = [] ∨ k = scope ∨ (scope ++ [d]) <+: k)

/-- Type predicate in the words of the spec: the filter is the all-types
selection, or the record type equals the filter. -/
def specTypeOk (tf ty : String) : Bool :=
  decide (tf = "All Types" ∨ ty = tf)

/-- Search predicate in the words of the spec: pattern empty, or the
lowercased key contains the lowercased pattern. -/
def specSearchOk (pat k : Str) : Bool :=
  decide (lowerStr pat = [] ∨ containsSub (lowerStr pat) (lowerStr k) = true)

theorem keyMatches_eq_spec (d : Char) (fs : FilterState) (r : RedisKey)
    (htf : fs.typeFilterSel ≠ "") :
    keyMatches d fs r =
      (specScopeOk d fs.scope r.key && specTypeOk fs.typeFilterSel r.type &&
        specSearchOk fs.searchText r.key) := by
  simp only [keyMatches, specScopeOk, specTypeOk, specSearchOk]
  by_cases h1 : fs.scope = []
  · by_cases h2 : fs.typeFilterSel = "All Types"
    · by_cases h3 : containsSub (lowerStr fs.searchText) (lowerStr r.key) = true
      · simp [h1, h2, h3]
      · by_cases h4 : lowerStr fs.searchText = [] <;>
          simp_all
    · by_cases h2b : r.type = fs.typeFilterSel
      · by_cases h3 : containsSub (lowerStr fs.searchText) (lowerStr r.key) = true
        · simp [h1, h2, h2b, h3]
        · by_cases h4 : lowerStr fs.searchText = [] <;> simp_all
      · simp [h1, htf, h2, h2b]
  · by_cases hs : (fs.scope ++ [d]) <+: r.key ∨ r.key = fs.scope
    · by_cases h2 : fs.typeFilterSel = "All Types" ∨ r.type = fs.typeFilterSel
      · by_cases h3 : containsSub (lowerStr fs.searchText) (lowerStr r.key) = true
        · rcases hs with hs | hs <;> rcases h2 with h2 | h2 <;> simp_all
        · by_cases h4 : lowerStr fs.searchText = [] <;>
            rcases hs with hs | hs <;> rcases h2 with h2 | h2 <;> simp_all
      · push_neg at h2
        rcases hs with hs | hs <;> simp_all
    · push_neg at hs
      simp_all [hs.2]

/-- Claim C1: filtering a snapshot keeps exactly the records passing the
scope, type and search predicates as the spec words them, in the snapshot's
original order; the filtered view is an order-preserving subsequence of the
snapshot and no longer than it.  (The hypothesis excludes the empty widget
string: the type selector is initialised to the all-types value before any
filtering, so its selection is never empty.) -/
theorem filterKeys_spec (d : Char) (fs : FilterState) (S : List RedisKey)
    (htf : fs.typeFilterSel ≠ "") :
    filterKeys d fs S = S.filter (fun r =>
        specScopeOk d fs.scope r.key && specTypeOk fs.typeFilterSel r.type &&
        specSearchOk fs.searchText r.key) ∧
    List.Sublist (filterKeys d fs S) S ∧
    (filterKeys d fs S).length ≤ S.length := by
  refine ⟨?_, List.filter_sublist S, List.length_filter_le _ S⟩
  unfold filterKeys
  exact List.filter_congr (fun r _ => keyMatches_eq_spec d fs r htf)

def fsW : FilterState := ⟨"user".data, "All Types", "1".data⟩

def snapW : List RedisKey := [⟨"user:1".data, "string", -1⟩, ⟨"x".data, "hash", -1⟩]

/-- Witness for C1 at a concrete snapshot and filter state. -/
theorem filterKeys_spec_witness :
    filterKeys ':' fsW snapW = snapW.filter (fun r =>
        specScopeOk ':' fsW.scope r.key && specTypeOk fsW.typeFilterSel r.type &&
        specSearchOk fsW.searchText r.key) ∧
    List.Sublist (filterKeys ':' fsW snapW) snapW ∧
    (filterKeys ':' fsW snapW).length ≤ snapW.length :=
  filterKeys_spec ':' fsW snapW (by decide)

/-! ## The tree index (TreeNode, addKeyToTree, buildKeyTree; keys.go 415-465) -/

/-- TreeNode of the source.  Children are an association list keyed by segment
name (the Go map keyed by the path segment; getChildIDs re-sorts on every
traversal, so the stored order is irrelevant to the claims). -/
inductive TreeNode : Type where
  | mk (id name fullKey : Str) (isKey : Bool) (keyType : String)
      (children : List (Str × TreeNode)) : TreeNode

def TreeNode.id : TreeNode → Str
  | .mk i _ _ _ _ _ => i

def TreeNode.name : TreeNode → Str
  | .mk _ n _ _ _ _ => n

def TreeNode.fullKey : TreeNode → Str
  | .mk _ _ f _ _ _ => f

def TreeNode.isKey : TreeNode → Bool
  | .mk _ _ _ k _ _ => k

def TreeNode.keyType : TreeNode → String
  | .mk _ _ _ _ ty _ => ty

def TreeNode.children : TreeNode → List (Str × TreeNode)
  | .mk _ _ _ _ _ cs => cs

/-- Replace a node's children (the Go code mutates the map in place). -/
def TreeNode.withChildren : TreeNode → List (Str × TreeNode) → TreeNode
  | .mk i n f k ty _, cs => .mk i n f k ty cs

/-- The isLastPart branch of addKeyToTree: mark the node as a key and install
the record's key and type, keeping id, name and children. -/
def TreeNode.promote (k : Str) (ty : String) : TreeNode → TreeNode
  | .mk i n _ _ _ cs => .mk i n k true ty cs

/-- Lookup in the children map (currentNode.Children[part]). -/
def findChild (nm : Str) : List (Str × TreeNode) → Option TreeNode
  | [] => none
  | (n, t) :: rest => if n = nm then some t else findChild nm rest

/-- Store into the children map (currentNode.Children[part] = child). -/
def setChild (nm : Str) (c : TreeNode) : List (Str × TreeNode) → List (Str × TreeNode)
  | [] => [(nm, c)]
  | (n, t) :: rest => if n = nm then (n, c) :: rest else (n, t) :: setChild nm c rest

/-- Descend from a node along a list of segment names. -/
def nodeAt : TreeNode → List Str → Option TreeNode
  | t, [] => some t
  | t, s :: rest =>
    match findChild s t.children with
    | some c => nodeAt c rest
    | none => none

/-- The walk of addKeyToTree over the remaining path segments.  `codePath`
is the running currentPath value of the source (note the source leaves it
empty while the accumulated segments are all empty, which is the origin of
the path anomaly for keys beginning with the delimiter). -/
def addKeyToTreeAux (d : Char) (k : Str) (ty : String) :
    List Str → Str → TreeNode → TreeNode
  | [], _, node => node
  | part :: rest, codePath, node =>
    let newPath := if codePath = [] then part else codePath ++ d :: part
    let child0 :=
      match findChild part node.children with
      | some c => c
      | none => TreeNode.mk newPath part k (rest = []) ty []
    let child1 := if rest = [] then child0.promote k ty else child0
    let child2 := addKeyToTreeAux d k ty rest newPath child1
    node.withChildren (setChild part child2 node.children)

/-- addKeyToTree: insert one key record into the tree. -/
def addKeyToTree (d : Char) (r : RedisKey) (t : TreeNode) : TreeNode :=
  addKeyToTreeAux d r.key r.type (splitOnChar d r.key) [] t

/-- The fresh root created at the start of every buildKeyTree. -/
def rootNode : TreeNode := .mk [] ("root".data) [] false "" []

/-- buildKeyTree: rebuild the tree from the filtered view, in order. -/
def buildKeyTree (d : Char) (keys : List RedisKey) : TreeNode :=
  keys.foldl (fun t r => addKeyToTree d r t) rootNode

/- countKeysInNode (keys.go 370-379): 1 for a key node plus the counts of
all children. -/
mutual
def countKeysInNode : TreeNode → Nat
  | .mk _ _ _ isKey _ cs => (if isKey then 1 else 0) + countKeysInChildren cs
def countKeysInChildren : List (Str × TreeNode) → Nat
  | [] => 0
  | (_, c) :: rest => countKeysInNode c + countKeysInChildren rest
end

/- All nodes of a subtree, the node itself included. -/
mutual
def subtreeNodes : TreeNode → List TreeNode
  | .mk i n f k ty cs => .mk i n f k ty cs :: subtreeNodesCh cs
def subtreeNodesCh : List (Str × TreeNode) → List TreeNode
  | [] => []
  | (_, c) :: rest => subtreeNodes c ++ subtreeNodesCh rest
end

/-- Lookup of a tree node by its ID string: the first descendant of the
root, in preorder, whose ID matches.  This models the Go treeNodes index
map: whenever node IDs are unique (which holds for delimiter-clean keys, see
the C2 theorem) the map and this search agree on every present ID. -/
def findById (t : TreeNode) (uid : Str) : Option TreeNode :=
  (subtreeNodesCh t.children).find? (fun n => decide (n.id = uid))

/-- Whether the node reached by a segment path exists and is a key node. -/
def isLeafAt (t : TreeNode) (p : List Str) : Bool :=
  match nodeAt t p with
  | some n => n.isKey
  | none => false

@[simp] theorem TreeNode.id_mk (i n f : Str) (k : Bool) (ty : String)
    (cs : List (Str × TreeNode)) : (TreeNode.mk i n f k ty cs).id = i := rfl

@[simp] theorem TreeNode.name_mk (i n f : Str) (k : Bool) (ty : String)
    (cs : List (Str × TreeNode)) : (TreeNode.mk i n f k ty cs).name = n := rfl

@[simp] theorem TreeNode.fullKey_mk (i n f : Str) (k : Bool) (ty : String)
    (cs : List (Str × TreeNode)) : (TreeNode.mk i n f k ty cs).fullKey = f := rfl

@[simp] theorem TreeNode.isKey_mk (i n f : Str) (k : Bool) (ty : String)
    (cs : List (Str × TreeNode)) : (TreeNode.mk i n f k ty cs).isKey = k := rfl

@[simp] theorem TreeNode.keyType_mk (i n f : Str) (k : Bool) (ty : String)
    (cs : List (Str × TreeNode)) : (TreeNode.mk i n f k ty cs).keyType = ty := rfl

@[simp] theorem TreeNode.children_mk (i n f : Str) (k : Bool) (ty : String)
    (cs : List (Str × TreeNode)) : (TreeNode.mk i n f k ty cs).children = cs := rfl

@[simp] theorem TreeNode.id_withChildren (t : TreeNode) (cs : List (Str × TreeNode)) :
    (t.withChildren cs).id = t.id := by cases t; rfl

@[simp] theorem TreeNode.name_withChildren (t : TreeNode) (cs : List (Str × TreeNode)) :
    (t.withChildren cs).name = t.name := by cases t; rfl

@[simp] theorem TreeNode.fullKey_withChildren (t : TreeNode) (cs : List (Str × TreeNode)) :
    (t.withChildren cs).fullKey = t.fullKey := by cases t; rfl

@[simp] theorem TreeNode.isKey_withChildren (t : TreeNode) (cs : List (Str × TreeNode)) :
    (t.withChildren cs).isKey = t.isKey := by cases t; rfl

@[simp] theorem TreeNode.keyType_withChildren (t : TreeNode) (cs : List (Str × TreeNode)) :
    (t.withChildren cs).keyType = t.keyType := by cases t; rfl

@[simp] theorem TreeNode.children_withChildren (t : TreeNode) (cs : List (Str × TreeNode)) :
    (t.withChildren cs).children = cs := by cases t; rfl

@[simp] theorem TreeNode.id_promote (k : Str) (ty : String) (t : TreeNode) :
    (t.promote k ty).id = t.id := by cases t; rfl

@[simp] theorem TreeNode.name_promote (k : Str) (ty : String) (t : TreeNode) :
    (t.promote k ty).name = t.name := by cases t; rfl

@[simp] theorem TreeNode.fullKey_promote (k : Str) (ty : String) (t : TreeNode) :
    (t.promote k ty).fullKey = k := by cases t; rfl

@[simp] theorem TreeNode.isKey_promote (k : Str) (ty : String) (t : TreeNode) :
    (t.promote k ty).isKey = true := by cases t; rfl

@[simp] theorem TreeNode.keyType_promote (k : Str) (ty : String) (t : TreeNode) :
    (t.promote k ty).keyType = ty := by cases t; rfl

@[simp] theorem TreeNode.children_promote (k : Str) (ty : String) (t : TreeNode) :
    (t.promote k ty).children = t.children := by cases t; rfl

theorem findChild_setChild_self (nm : Str) (c : TreeNode) (cs : List (Str × TreeNode)) :
    findChild nm (setChild nm c cs) = some c := by
  induction cs with
  | nil => simp [setChild, findChild]
  | cons hd rest ih =>
    obtain ⟨n, t⟩ := hd
    by_cases h : n = nm
    · simp [setChild, findChild, h]
    · simp [setChild, findChild, h, ih]

theorem findChild_setChild_other (nm nm2 : Str) (c : TreeNode)
    (cs : List (Str × TreeNode)) (h : nm2 ≠ nm) :
    findChild nm2 (setChild nm c cs) = findChild nm2 cs := by
  induction cs with
  | nil => simp [setChild, findChild, Ne.symm h]
  | cons hd rest ih =>
    obtain ⟨n, t⟩ := hd
    by_cases hn : n = nm
    · subst hn
      simp [setChild, findChild, Ne.symm h]
    · simp [setChild, findChild, hn, ih]

@[simp] theorem nodeAt_nil (t : TreeNode) : nodeAt t [] = some t := rfl

theorem nodeAt_cons_some (t c : TreeNode) (s : Str) (rest : List Str)
    (h : findChild s t.children = some c) :
    nodeAt t (s :: rest) = nodeAt c rest := by
  simp [nodeAt, h]

theorem nodeAt_cons_none (t : TreeNode) (s : Str) (rest : List Str)
    (h : findChild s t.children = none) :
    nodeAt t (s :: rest) = none := by
  simp [nodeAt, h]

theorem countKeysInNode_def (t : TreeNode) :
    countKeysInNode t = (if t.isKey then 1 else 0) + countKeysInChildren t.children := by
  cases t
  simp [countKeysInNode]

@[simp] theorem countKeysInChildren_nil : countKeysInChildren [] = 0 := by
  simp [countKeysInChildren]

theorem countKeysInChildren_cons (nm : Str) (c : TreeNode) (rest : List (Str × TreeNode)) :
    countKeysInChildren ((nm, c) :: rest) = countKeysInNode c + countKeysInChildren rest := by
  simp [countKeysInChildren]

theorem addKeyToTreeAux_fields (d : Char) (k : Str) (ty : String)
    (parts : List Str) (cp : Str) (t : TreeNode) :
    (addKeyToTreeAux d k ty parts cp t).id = t.id ∧
    (addKeyToTreeAux d k ty parts cp t).name = t.name ∧
    (addKeyToTreeAux d k ty parts cp t).fullKey = t.fullKey ∧
    (addKeyToTreeAux d k ty parts cp t).isKey = t.isKey ∧
    (addKeyToTreeAux d k ty parts cp t).keyType = t.keyType := by
  cases parts with
  | nil => simp [addKeyToTreeAux]
  | cons part rest => simp [addKeyToTreeAux]

theorem countKeysInChildren_setChild_none (nm : Str) (c : TreeNode)
    (cs : List (Str × TreeNode)) (h : findChild nm cs = none) :
    countKeysInChildren (setChild nm c cs) = countKeysInChildren cs + countKeysInNode c := by
  induction cs with
  | nil => simp [setChild, countKeysInChildren, Nat.add_comm]
  | cons hd rest ih =>
    obtain ⟨n, t⟩ := hd
    by_cases hn : n = nm
    · simp [findChild, hn] at h
    · simp only [findChild, if_neg hn] at h
      simp [setChild, if_neg hn, countKeysInChildren_cons, ih h, Nat.add_assoc]

theorem countKeysInChildren_setChild_some (nm : Str) (c c0 : TreeNode)
    (cs : List (Str × TreeNode)) (h : findChild nm cs = some c0) :
    countKeysInChildren (setChild nm c cs) + countKeysInNode c0 =
      countKeysInChildren cs + countKeysInNode c := by
  induction cs with
  | nil => simp [findChild] at h
  | cons hd rest ih =>
    obtain ⟨n, t⟩ := hd
    by_cases hn : n = nm
    · simp only [findChild, if_pos hn] at h
      cases h
      simp [setChild, if_pos hn, countKeysInChildren_cons]
      omega
    · simp only [findChild, if_neg hn] at h
      simp only [setChild, if_neg hn, countKeysInChildren_cons]
      have := ih h
      omega

theorem addAux_single_some (d : Char) (k : Str) (ty : String) (part : Str)
    (cp : Str) (t c : TreeNode) (h : findChild part t.children = some c) :
    addKeyToTreeAux d k ty [part] cp t =
      t.withChildren (setChild part (c.promote k ty) t.children) := by
  simp [addKeyToTreeAux, h]

theorem addAux_single_none (d : Char) (k : Str) (ty : String) (part : Str)
    (cp : Str) (t : TreeNode) (h : findChild part t.children = none) :
    addKeyToTreeAux d k ty [part] cp t =
      t.withChildren (setChild part
        (TreeNode.mk (if cp = [] then part else cp ++ d :: part) part k true ty [])
        t.children) := by
  simp [addKeyToTreeAux, h, TreeNode.promote]

theorem addAux_cons2_some (d : Char) (k : Str) (ty : String) (part : Str)
    (rest : List Str) (cp : Str) (t c : TreeNode) (hrest : rest ≠ [])
    (h : findChild part t.children = some c) :
    addKeyToTreeAux d k ty (part :: rest) cp t =
      t.withChildren (setChild part
        (addKeyToTreeAux d k ty rest (if cp = [] then part else cp ++ d :: part) c)
        t.children) := by
  simp [addKeyToTreeAux, h, hrest]

theorem addAux_cons2_none (d : Char) (k : Str) (ty : String) (part : Str)
    (rest : List Str) (cp : Str) (t : TreeNode) (hrest : rest ≠ [])
    (h : findChild part t.children = none) :
    addKeyToTreeAux d k ty (part :: rest) cp t =
      t.withChildren (setChild part
        (addKeyToTreeAux d k ty rest (if cp = [] then part else cp ++ d :: part)
          (TreeNode.mk (if cp = [] then part else cp ++ d :: part) part k false ty []))
        t.children) := by
  simp [addKeyToTreeAux, h, hrest]

@[simp] theorem isLeafAt_nil (t : TreeNode) : isLeafAt t [] = t.isKey := rfl

theorem isLeafAt_cons_some (t c : TreeNode) (s : Str) (qs : List Str)
    (h : findChild s t.children = some c) :
    isLeafAt t (s :: qs) = isLeafAt c qs := by
  simp [isLeafAt, nodeAt_cons_some t c s qs h]

theorem isLeafAt_cons_none (t : TreeNode) (s : Str) (qs : List Str)
    (h : findChild s t.children = none) :
    isLeafAt t (s :: qs) = false := by
  simp [isLeafAt, nodeAt_cons_none t s qs h]

theorem isLeafAt_set_self (t : TreeNode) (part : Str) (x : TreeNode) (qs : List Str) :
    isLeafAt (t.withChildren (setChild part x t.children)) (part :: qs) = isLeafAt x qs := by
  apply isLeafAt_cons_some
  simp [findChild_setChild_self]

theorem isLeafAt_set_other (t : TreeNode) (part s : Str) (x : TreeNode) (qs : List Str)
    (hs : s ≠ part) :
    isLeafAt (t.withChildren (setChild part x t.children)) (s :: qs) = isLeafAt t (s :: qs) := by
  have hfc : findChild s (t.withChildren (setChild part x t.children)).children =
      findChild s t.children := by
    simp [findChild_setChild_other part s _ _ hs]
  rcases hq : findChild s t.children with _ | c2
  · rw [isLeafAt_cons_none _ s qs (hfc.trans hq), isLeafAt_cons_none t s qs hq]
  · rw [isLeafAt_cons_some _ c2 s qs (hfc.trans hq), isLeafAt_cons_some t c2 s qs hq]

theorem isLeafAt_fresh (i nm f : Str) (ty : String) (qs : List Str) :
    isLeafAt (TreeNode.mk i nm f false ty []) qs = false := by
  cases qs with
  | nil => simp
  | cons q1 qs1 => rw [isLeafAt_cons_none _ q1 qs1 (by simp [findChild])]

/-- Inserting a key's segment path marks exactly that path as a leaf and
leaves the leaf-status of every other path unchanged. -/
theorem isLeafAt_addAux (d : Char) (k : Str) (ty : String) :
    ∀ (parts : List Str) (cp : Str) (t : TreeNode) (q : List Str), parts ≠ [] →
      isLeafAt (addKeyToTreeAux d k ty parts cp t) q =
        (isLeafAt t q || decide (q = parts)) := by
  intro parts
  induction parts with
  | nil => intro cp t q h; exact absurd rfl h
  | cons part rest ih =>
    intro cp t q _
    cases rest with
    | nil =>
      rcases hf : findChild part t.children with _ | c
      · rw [addAux_single_none d k ty part cp t hf]
        cases q with
        | nil => simp
        | cons s qs =>
          by_cases hs : s = part
          · subst hs
            rw [isLeafAt_set_self]
            cases qs with
            | nil => simp
            | cons q1 qs1 =>
              rw [isLeafAt_cons_none _ q1 qs1 (by simp [findChild])]
              rw [isLeafAt_cons_none t s (q1 :: qs1) hf]
              simp
          · rw [isLeafAt_set_other t part s _ qs hs]
            simp [hs]
      · rw [addAux_single_some d k ty part cp t c hf]
        cases q with
        | nil => simp
        | cons s qs =>
          by_cases hs : s = part
          · subst hs
            rw [isLeafAt_set_self]
            cases qs with
            | nil => simp
            | cons q1 qs1 =>
              have hch : (c.promote k ty).children = c.children := by simp
              rcases hq : findChild q1 c.children with _ | c2
              · rw [isLeafAt_cons_none _ q1 qs1 (hch.symm ▸ hq)]
                rw [isLeafAt_cons_some t c s (q1 :: qs1) hf,
                    isLeafAt_cons_none c q1 qs1 hq]
                simp
              · rw [isLeafAt_cons_some _ c2 q1 qs1 (hch.symm ▸ hq)]
                rw [isLeafAt_cons_some t c s (q1 :: qs1) hf,
                    isLeafAt_cons_some c c2 q1 qs1 hq]
                simp
          · rw [isLeafAt_set_other t part s _ qs hs]
            simp [hs]
    | cons r2 rs =>
      have hrest : (r2 :: rs : List Str) ≠ [] := by simp
      rcases hf : findChild part t.children with _ | c
      · rw [addAux_cons2_none d k ty part (r2 :: rs) cp t hrest hf]
        cases q with
        | nil => simp [isLeafAt]
        | cons s qs =>
          by_cases hs : s = part
          · subst hs
            rw [isLeafAt_set_self]
            rw [ih _ _ qs hrest]
            rw [isLeafAt_fresh]
            rw [isLeafAt_cons_none t s qs hf]
            simp
          · rw [isLeafAt_set_other t part s _ qs hs]
            simp [hs]
      · rw [addAux_cons2_some d k ty part (r2 :: rs) cp t c hrest hf]
        cases q with
        | nil => simp [isLeafAt]
        | cons s qs =>
          by_cases hs : s = part
          · subst hs
            rw [isLeafAt_set_self]
            rw [ih _ _ qs hrest]
            rw [isLeafAt_cons_some t c s qs hf]
            simp
          · rw [isLeafAt_set_other t part s _ qs hs]
            simp [hs]

/-- Inserting a key's segment path increases the key count by one exactly
when the path was not already a leaf. -/
theorem countKeys_addAux (d : Char) (k : Str) (ty : String) :
    ∀ (parts : List Str) (cp : Str) (t : TreeNode), parts ≠ [] →
      countKeysInNode (addKeyToTreeAux d k ty parts cp t) =
        countKeysInNode t + (if isLeafAt t parts = true then 0 else 1) := by
  intro parts
  induction parts with
  | nil => intro cp t h; exact absurd rfl h
  | cons part rest ih =>
    intro cp t _
    cases rest with
    | nil =>
      rcases hf : findChild part t.children with _ | c
      · rw [addAux_single_none d k ty part cp t hf]
        rw [countKeysInNode_def, countKeysInNode_def t]
        simp only [TreeNode.isKey_withChildren, TreeNode.children_withChildren]
        rw [countKeysInChildren_setChild_none part _ t.children hf]
        have h1 : countKeysInNode
            (TreeNode.mk (if cp = [] then part else cp ++ d :: part) part k true ty []) = 1 := by
          rw [countKeysInNode_def]
          simp
        rw [h1, isLeafAt_cons_none t part [] hf]
        simp [Nat.add_assoc]
      · rw [addAux_single_some d k ty part cp t c hf]
        rw [countKeysInNode_def, countKeysInNode_def t]
        simp only [TreeNode.isKey_withChildren, TreeNode.children_withChildren]
        have hset := countKeysInChildren_setChild_some part (c.promote k ty) c t.children hf
        have hpc : countKeysInNode (c.promote k ty) = 1 + countKeysInChildren c.children := by
          rw [countKeysInNode_def]
          simp
        have hcc : countKeysInNode c =
            (if c.isKey then 1 else 0) + countKeysInChildren c.children :=
          countKeysInNode_def c
        rw [isLeafAt_cons_some t c part [] hf, isLeafAt_nil]
        cases hk : c.isKey <;> simp [hk] at hcc ⊢ <;> omega
    | cons r2 rs =>
      have hrest : (r2 :: rs : List Str) ≠ [] := by simp
      rcases hf : findChild part t.children with _ | c
      · rw [addAux_cons2_none d k ty part (r2 :: rs) cp t hrest hf]
        rw [countKeysInNode_def, countKeysInNode_def t]
        simp only [TreeNode.isKey_withChildren, TreeNode.children_withChildren]
        rw [countKeysInChildren_setChild_none part _ t.children hf]
        have hfr : countKeysInNode
            (TreeNode.mk (if cp = [] then part else cp ++ d :: part) part k false ty []) = 0 := by
          rw [countKeysInNode_def]
          simp
        rw [ih _ _ hrest, hfr, isLeafAt_fresh, isLeafAt_cons_none t part (r2 :: rs) hf]
        simp [Nat.add_assoc]
      · rw [addAux_cons2_some d k ty part (r2 :: rs) cp t c hrest hf]
        rw [countKeysInNode_def, countKeysInNode_def t]
        simp only [TreeNode.isKey_withChildren, TreeNode.children_withChildren]
        have hset := countKeysInChildren_setChild_some part
          (addKeyToTreeAux d k ty (r2 :: rs) (if cp = [] then part else cp ++ d :: part) c)
          c t.children hf
        rw [ih _ _ hrest] at hset
        rw [isLeafAt_cons_some t c part (r2 :: rs) hf]
        cases hl : isLeafAt c (r2 :: rs) <;> simp [hl] at hset ⊢ <;> omega

theorem buildKeyTree_concat (d : Char) (V : List RedisKey) (r : RedisKey) :
    buildKeyTree d (V ++ [r]) = addKeyToTree d r (buildKeyTree d V) := by
  simp [buildKeyTree, List.foldl_append]

/-- A path is a leaf of the built tree exactly when it is the segment path of
one of the inserted keys. -/
theorem isLeafAt_buildKeyTree (d : Char) (V : List RedisKey) (q : List Str) :
    isLeafAt (buildKeyTree d V) q =
      decide (q ∈ V.map (fun r => splitOnChar d r.key)) := by
  induction V using List.reverseRecOn with
  | nil =>
    cases q with
    | nil => simp [buildKeyTree, rootNode]
    | cons s qs =>
      rw [isLeafAt_cons_none _ s qs (by simp [buildKeyTree, rootNode, findChild])]
      simp
  | append_singleton V r ih =>
    rw [buildKeyTree_concat, addKeyToTree,
        isLeafAt_addAux d r.key r.type (splitOnChar d r.key) [] _ q
          (splitOnChar_ne_nil d r.key), ih]
    by_cases h1 : q ∈ V.map (fun r2 => splitOnChar d r2.key) <;>
      by_cases h2 : q = splitOnChar d r.key <;> simp [h1, h2]

theorem dedup_concat_length {α : Type} [DecidableEq α] (l : List α) (x : α) :
    ((l ++ [x]).dedup).length = l.dedup.length + (if x ∈ l then 0 else 1) := by
  rw [← List.card_toFinset, ← List.card_toFinset, List.toFinset_append]
  have hins : l.toFinset ∪ ([x] : List α).toFinset = insert x l.toFinset := by
    rw [Finset.insert_eq]
    rw [Finset.union_comm]
    rfl
  rw [hins]
  by_cases h : x ∈ l
  · rw [Finset.card_insert_of_mem (List.mem_toFinset.mpr h), if_pos h]
    omega
  · rw [Finset.card_insert_of_not_mem (fun hx => h (List.mem_toFinset.mp hx)), if_neg h]

theorem list_toFinset_map {α β : Type} [DecidableEq α] [DecidableEq β]
    (f : α → β) (l : List α) : (l.map f).toFinset = l.toFinset.image f := by
  ext b
  simp [List.mem_toFinset, Finset.mem_image, List.mem_map]

theorem dedup_length_map_inj {α β : Type} [DecidableEq α] [DecidableEq β]
    (f : α → β) (hf : Function.Injective f) (l : List α) :
    ((l.map f).dedup).length = l.dedup.length := by
  rw [← List.card_toFinset, ← List.card_toFinset, list_toFinset_map,
      Finset.card_image_of_injective _ hf]

theorem splitOnChar_injective (d : Char) : Function.Injective (splitOnChar d) := by
  intro a b h
  rw [← intercalateChar_splitOnChar d a, ← intercalateChar_splitOnChar d b, h]

/-- The root count of the rebuilt tree is the number of distinct segment
paths, i.e. the number of distinct keys, of the inserted view. -/
theorem countKeys_buildKeyTree (d : Char) (V : List RedisKey) :
    countKeysInNode (buildKeyTree d V) =
      ((V.map (fun r => splitOnChar d r.key)).dedup).length := by
  induction V using List.reverseRecOn with
  | nil =>
    rw [show buildKeyTree d [] = rootNode from rfl, countKeysInNode_def]
    simp [rootNode]
  | append_singleton V r ih =>
    rw [buildKeyTree_concat, addKeyToTree,
        countKeys_addAux d r.key r.type (splitOnChar d r.key) [] _
          (splitOnChar_ne_nil d r.key), ih, isLeafAt_buildKeyTree,
        List.map_append]
    simp only [List.map_cons, List.map_nil]
    rw [dedup_concat_length]
    by_cases h : splitOnChar d r.key ∈ V.map (fun r2 => splitOnChar d r2.key) <;>
      simp [h]

/-- Count of the text displayed next to a node agrees with the number of key
nodes in its subtree (proved jointly with the children version by strong
induction on the size of the subtree). -/
theorem countKeys_subtree_aux (fuel : Nat) :
    (∀ t : TreeNode, sizeOf t ≤ fuel →
        countKeysInNode t = ((subtreeNodes t).filter (fun n => n.isKey)).length) ∧
    (∀ cs : List (Str × TreeNode), sizeOf cs ≤ fuel →
        countKeysInChildren cs =
          ((subtreeNodesCh cs).filter (fun n => n.isKey)).length) := by
  induction fuel with
  | zero =>
    constructor
    · intro t ht
      exfalso
      cases t with
      | mk i nm f k ty cs =>
        rw [TreeNode.mk.sizeOf_spec] at ht
        omega
    · intro cs hcs
      cases cs with
      | nil => simp [subtreeNodesCh, countKeysInChildren]
      | cons hd rest =>
        exfalso
        rw [List.cons.sizeOf_spec] at hcs
        omega
  | succ n ihn =>
    constructor
    · intro t ht
      cases t with
      | mk i nm f k ty cs =>
        have hcs : sizeOf cs ≤ n := by
          rw [TreeNode.mk.sizeOf_spec] at ht
          omega
        rw [countKeysInNode_def]
        rw [show subtreeNodes (TreeNode.mk i nm f k ty cs) =
            TreeNode.mk i nm f k ty cs :: subtreeNodesCh cs from by simp [subtreeNodes]]
        rw [List.filter_cons]
        have hch := ihn.2 cs hcs
        clear ht ihn
        cases k
        · simp [hch]
        · simp [hch]
          omega
    · intro cs hcs
      cases cs with
      | nil => simp [subtreeNodesCh, countKeysInChildren]
      | cons hd rest =>
        obtain ⟨nm, c⟩ := hd
        rw [List.cons.sizeOf_spec, Prod.mk.sizeOf_spec] at hcs
        have h1 : sizeOf c ≤ n := by omega
        have h2 : sizeOf rest ≤ n := by omega
        rw [countKeysInChildren_cons,
            show subtreeNodesCh ((nm, c) :: rest) =
              subtreeNodes c ++ subtreeNodesCh rest from by simp [subtreeNodesCh],
            List.filter_append, List.length_append, ihn.1 c h1, ihn.2 rest h2]

/-- Claim C3 (amended): the displayed count of every node equals the number
of key (leaf) nodes in its subtree, and the root's count of the tree rebuilt
from a filtered view equals the number of distinct keys of that view (which
is its length exactly when the view has no duplicate keys). -/
theorem countKeysInNode_spec :
    (∀ t : TreeNode,
        countKeysInNode t = ((subtreeNodes t).filter (fun n => n.isKey)).length) ∧
    (∀ (d : Char) (V : List RedisKey),
        countKeysInNode (buildKeyTree d V) = ((V.map (fun r => r.key)).dedup).length) := by
  constructor
  · intro t
    exact (countKeys_subtree_aux (sizeOf t)).1 t (Nat.le_refl _)
  · intro d V
    rw [countKeys_buildKeyTree]
    have hmm : V.map (fun r => splitOnChar d r.key) =
        (V.map (fun r => r.key)).map (splitOnChar d) := by
      rw [List.map_map]
      rfl
    rw [hmm, dedup_length_map_inj (splitOnChar d) (splitOnChar_injective d)]

/-- Claim C3 counterexample: a filtered view holding the same key twice
rebuilds to a tree whose root count is 1, not the view's length 2. -/
theorem countKeysInNode_counterexample :
    countKeysInNode (buildKeyTree ':'
        [⟨"a".data, "string", -1⟩, ⟨"a".data, "string", -1⟩]) = 1 ∧
    ([⟨"a".data, "string", -1⟩, ⟨"a".data, "string", -1⟩] : List RedisKey).length = 2 := by
  constructor
  · rfl
  · rfl

theorem nodeAt_set_self (t : TreeNode) (part : Str) (x : TreeNode) (qs : List Str) :
    nodeAt (t.withChildren (setChild part x t.children)) (part :: qs) = nodeAt x qs := by
  apply nodeAt_cons_some
  simp [findChild_setChild_self]

theorem nodeAt_set_other (t : TreeNode) (part s : Str) (x : TreeNode) (qs : List Str)
    (hs : s ≠ part) :
    nodeAt (t.withChildren (setChild part x t.children)) (s :: qs) = nodeAt t (s :: qs) := by
  have hfc : findChild s (t.withChildren (setChild part x t.children)).children =
      findChild s t.children := by
    simp [findChild_setChild_other part s _ _ hs]
  rcases hq : findChild s t.children with _ | c2
  · rw [nodeAt_cons_none _ s qs (hfc.trans hq), nodeAt_cons_none t s qs hq]
  · rw [nodeAt_cons_some _ c2 s qs (hfc.trans hq), nodeAt_cons_some t c2 s qs hq]

theorem nodeAt_promote_cons (c : TreeNode) (k : Str) (ty : String)
    (q1 : Str) (qs1 : List Str) :
    nodeAt (c.promote k ty) (q1 :: qs1) = nodeAt c (q1 :: qs1) := by
  rcases hq : findChild q1 c.children with _ | c2
  · rw [nodeAt_cons_none _ q1 qs1 (by simpa using hq), nodeAt_cons_none c q1 qs1 hq]
  · rw [nodeAt_cons_some _ c2 q1 qs1 (by simpa using hq), nodeAt_cons_some c c2 q1 qs1 hq]

theorem nodeAt_fresh_cons (i nm f : Str) (k : Bool) (ty : String)
    (q1 : Str) (qs1 : List Str) :
    nodeAt (TreeNode.mk i nm f k ty []) (q1 :: qs1) = none :=
  nodeAt_cons_none _ q1 qs1 (by simp [findChild])

/-- Inserting a key installs leaf metadata (key, type) at exactly the key's
segment path, creating the node if needed and keeping its previous children. -/
theorem addAux_self (d : Char) (k : Str) (ty : String) :
    ∀ (parts : List Str) (cp : Str) (t : TreeNode), parts ≠ [] →
      ∃ n, nodeAt (addKeyToTreeAux d k ty parts cp t) parts = some n ∧
        n.isKey = true ∧ n.fullKey = k ∧ n.keyType = ty ∧
        n.children = (match nodeAt t parts with
                      | some m => m.children
                      | none => []) := by
  intro parts
  induction parts with
  | nil => intro cp t h; exact absurd rfl h
  | cons part rest ih =>
    intro cp t _
    cases rest with
    | nil =>
      rcases hf : findChild part t.children with _ | c
      · rw [addAux_single_none d k ty part cp t hf]
        refine ⟨_, nodeAt_set_self t part _ [], rfl, rfl, rfl, ?_⟩
        rw [nodeAt_cons_none t part [] hf]
        simp
      · rw [addAux_single_some d k ty part cp t c hf]
        refine ⟨_, nodeAt_set_self t part _ [], by simp, by simp, by simp, ?_⟩
        rw [nodeAt_cons_some t c part [] hf]
        simp
    | cons r2 rs =>
      have hrest : (r2 :: rs : List Str) ≠ [] := by simp
      rcases hf : findChild part t.children with _ | c
      · rw [addAux_cons2_none d k ty part (r2 :: rs) cp t hrest hf]
        obtain ⟨n, hn, h1, h2, h3, h4⟩ := ih (if cp = [] then part else cp ++ d :: part)
          (TreeNode.mk (if cp = [] then part else cp ++ d :: part) part k false ty []) hrest
        refine ⟨n, ?_, h1, h2, h3, ?_⟩
        · rw [nodeAt_set_self]
          exact hn
        · rw [nodeAt_cons_none t part (r2 :: rs) hf]
          rw [nodeAt_fresh_cons] at h4
          exact h4
      · rw [addAux_cons2_some d k ty part (r2 :: rs) cp t c hrest hf]
        obtain ⟨n, hn, h1, h2, h3, h4⟩ := ih (if cp = [] then part else cp ++ d :: part) c hrest
        refine ⟨n, ?_, h1, h2, h3, ?_⟩
        · rw [nodeAt_set_self]
          exact hn
        · rw [nodeAt_cons_some t c part (r2 :: rs) hf]
          exact h4

/-- Inserting a key leaves the metadata (leaf flag, key, type, id, name) of
every node at a different segment path unchanged. -/
theorem addAux_frame (d : Char) (k : Str) (ty : String) :
    ∀ (parts : List Str) (cp : Str) (t : TreeNode) (q : List Str) (m : TreeNode),
      q ≠ parts → nodeAt t q = some m →
      ∃ m2, nodeAt (addKeyToTreeAux d k ty parts cp t) q = some m2 ∧
        m2.isKey = m.isKey ∧ m2.fullKey = m.fullKey ∧ m2.keyType = m.keyType ∧
        m2.id = m.id ∧ m2.name = m.name := by
  intro parts
  induction parts with
  | nil =>
    intro cp t q m hq hm
    exact ⟨m, hm, rfl, rfl, rfl, rfl, rfl⟩
  | cons part rest ih =>
    intro cp t q m hq hm
    cases q with
    | nil =>
      have hmt : m = t := by
        rw [nodeAt_nil] at hm
        exact (Option.some_inj.mp hm).symm
      subst hmt
      obtain ⟨f1, f2, f3, f4, f5⟩ := addKeyToTreeAux_fields d k ty (part :: rest) cp m
      exact ⟨addKeyToTreeAux d k ty (part :: rest) cp m, nodeAt_nil _, f4, f3, f5, f1, f2⟩
    | cons s qs =>
      by_cases hs : s = part
      · subst hs
        rcases hf : findChild s t.children with _ | c
        · rw [nodeAt_cons_none t s qs hf] at hm
          cases hm
        · rw [nodeAt_cons_some t c s qs hf] at hm
          cases rest with
          | nil =>
            have hqs : qs ≠ [] := fun h => hq (by rw [h])
            rw [addAux_single_some d k ty s cp t c hf]
            obtain ⟨q1, qs1, hq1⟩ : ∃ q1 qs1, qs = q1 :: qs1 := by
              cases qs with
              | nil => exact absurd rfl hqs
              | cons a b => exact ⟨a, b, rfl⟩
            refine ⟨m, ?_, rfl, rfl, rfl, rfl, rfl⟩
            rw [nodeAt_set_self, hq1, nodeAt_promote_cons]
            rw [hq1] at hm
            exact hm
          | cons r2 rs =>
            have hrest : (r2 :: rs : List Str) ≠ [] := by simp
            have hqs : qs ≠ r2 :: rs := fun h => hq (by rw [h])
            rw [addAux_cons2_some d k ty s (r2 :: rs) cp t c hrest hf]
            obtain ⟨m2, hm2, g1, g2, g3, g4, g5⟩ :=
              ih (if cp = [] then s else cp ++ d :: s) c qs m hqs hm
            refine ⟨m2, ?_, g1, g2, g3, g4, g5⟩
            rw [nodeAt_set_self]
            exact hm2
      · rcases hf : findChild part t.children with _ | c
        · cases rest with
          | nil =>
            rw [addAux_single_none d k ty part cp t hf]
            refine ⟨m, ?_, rfl, rfl, rfl, rfl, rfl⟩
            rw [nodeAt_set_other t part s _ qs hs]
            exact hm
          | cons r2 rs =>
            rw [addAux_cons2_none d k ty part (r2 :: rs) cp t (by simp) hf]
            refine ⟨m, ?_, rfl, rfl, rfl, rfl, rfl⟩
            rw [nodeAt_set_other t part s _ qs hs]
            exact hm
        · cases rest with
          | nil =>
            rw [addAux_single_some d k ty part cp t c hf]
            refine ⟨m, ?_, rfl, rfl, rfl, rfl, rfl⟩
            rw [nodeAt_set_other t part s _ qs hs]
            exact hm
          | cons r2 rs =>
            rw [addAux_cons2_some d k ty part (r2 :: rs) cp t c (by simp) hf]
            refine ⟨m, ?_, rfl, rfl, rfl, rfl, rfl⟩
            rw [nodeAt_set_other t part s _ qs hs]
            exact hm

/-- Claim C4: if a key's full path already exists as a node (for instance a
folder created by a longer key), inserting the key promotes that node to
carry leaf metadata while keeping its children; for several records mapping
to the same exact path the last-processed record's key and type win. -/
theorem addKeyToTree_collision :
    (∀ (d : Char) (r : RedisKey) (t : TreeNode),
       ∃ n, nodeAt (addKeyToTree d r t) (splitOnChar d r.key) = some n ∧
         n.isKey = true ∧ n.fullKey = r.key ∧ n.keyType = r.type ∧
         n.children = (match nodeAt t (splitOnChar d r.key) with
                       | some m => m.children
                       | none => [])) ∧
    (∀ (d : Char) (V : List RedisKey) (r : RedisKey), r ∈ V →
       ∃ n rl, nodeAt (buildKeyTree d V) (splitOnChar d r.key) = some n ∧
         (V.filter (fun r2 => decide (splitOnChar d r2.key = splitOnChar d r.key))).getLast?
             = some rl ∧
         n.isKey = true ∧ n.fullKey = rl.key ∧ n.keyType = rl.type) := by
  have part1 : ∀ (d : Char) (r : RedisKey) (t : TreeNode),
      ∃ n, nodeAt (addKeyToTree d r t) (splitOnChar d r.key) = some n ∧
        n.isKey = true ∧ n.fullKey = r.key ∧ n.keyType = r.type ∧
        n.children = (match nodeAt t (splitOnChar d r.key) with
                      | some m => m.children
                      | none => []) := by
    intro d r t
    exact addAux_self d r.key r.type (splitOnChar d r.key) [] t (splitOnChar_ne_nil d r.key)
  refine ⟨part1, ?_⟩
  intro d V
  induction V using List.reverseRecOn with
  | nil => intro r hr; simp at hr
  | append_singleton V x ihV =>
    intro r hr
    by_cases hsp : splitOnChar d x.key = splitOnChar d r.key
    · obtain ⟨n, hn, h1, h2, h3, h4⟩ := part1 d x (buildKeyTree d V)
      rw [hsp] at hn
      refine ⟨n, x, ?_, ?_, h1, h2, h3⟩
      · rw [buildKeyTree_concat]
        exact hn
      · rw [List.filter_append]
        rw [show List.filter (fun r2 => decide (splitOnChar d r2.key = splitOnChar d r.key)) [x]
            = [x] from by simp [List.filter, hsp]]
        exact List.getLast?_concat _
    · have hrV : r ∈ V := by
        rcases List.mem_append.mp hr with h | h
        · exact h
        · exfalso
          rw [List.mem_singleton.mp h] at hsp
          exact hsp rfl
      obtain ⟨n, rl, hn, hlast, h1, h2, h3⟩ := ihV r hrV
      obtain ⟨m2, hm2, g1, g2, g3, _, _⟩ :=
        addAux_frame d x.key x.type (splitOnChar d x.key) [] (buildKeyTree d V)
          (splitOnChar d r.key) n (fun h => hsp h.symm) hn
      refine ⟨m2, rl, ?_, ?_, g1.trans h1, g2.trans h2, g3.trans h3⟩
      · rw [buildKeyTree_concat]
        exact hm2
      · rw [List.filter_append]
        rw [show List.filter (fun r2 => decide (splitOnChar d r2.key = splitOnChar d r.key)) [x]
            = [] from by simp [List.filter, hsp]]
        rw [List.append_nil]
        exact hlast

def collisionView : List RedisKey :=
  [⟨"user:1".data, "string", -1⟩, ⟨"user".data, "hash", -1⟩]

/-- Witness for C4: in a view where "user" arrives after "user:1" created the
"user" folder, the folder is promoted to a leaf carrying the "user" record. -/
theorem addKeyToTree_collision_witness :
    ∃ n rl, nodeAt (buildKeyTree ':' collisionView)
        (splitOnChar ':' ("user".data)) = some n ∧
      (collisionView.filter (fun r2 =>
          decide (splitOnChar ':' r2.key = splitOnChar ':' ("user".data)))).getLast?
          = some rl ∧
      n.isKey = true ∧ n.fullKey = rl.key ∧ n.keyType = rl.type :=
  addKeyToTree_collision.2 ':' collisionView ⟨"user".data, "hash", -1⟩ (by decide)

/-! ## The path invariant of the tree (claim C2) -/

/-- Invariant of a subtree sitting below the segment path `base`: every
descendant's path is delimiter-free, its name is its last segment, its ID is
the join of root-to-node segments, and key nodes carry exactly that join as
their full key. -/
def SaneAt (d : Char) (base : List Str) (t : TreeNode) : Prop :=
  ∀ p n, nodeAt t p = some n → p ≠ [] →
    (∀ s ∈ p, d ∉ s) ∧
    (base = [] → p.head? ≠ some ([] : Str)) ∧
    p.getLast? = some n.name ∧
    n.id = intercalateChar d (base ++ p) ∧
    (n.isKey = true → n.fullKey = intercalateChar d (base ++ p))

theorem saneAt_leafless (d : Char) (base : List Str) (i nm f : Str) (b : Bool)
    (ty : String) : SaneAt d base (TreeNode.mk i nm f b ty []) := by
  intro p n hp hpne
  cases p with
  | nil => exact absurd rfl hpne
  | cons x xs =>
    rw [nodeAt_fresh_cons] at hp
    cases hp

theorem saneAt_child (d : Char) (base : List Str) (t c : TreeNode) (s : Str)
    (hf : findChild s t.children = some c) (hsane : SaneAt d base t) :
    SaneAt d (base ++ [s]) c := by
  intro p n hp hpne
  obtain ⟨hfree, _, hlast, hid, hfk⟩ := hsane (s :: p) n
    (by rw [nodeAt_cons_some t c s p hf]; exact hp) (by simp)
  refine ⟨fun x hx => hfree x (List.mem_cons_of_mem s hx), by simp, ?_, ?_, ?_⟩
  · cases p with
    | nil => exact absurd rfl hpne
    | cons x xs =>
      rw [← List.getLast?_cons_cons]
      exact hlast
  · rw [show (base ++ [s]) ++ p = base ++ s :: p from by simp]
    exact hid
  · rw [show (base ++ [s]) ++ p = base ++ s :: p from by simp]
    exact hfk

theorem newPath_eq (d : Char) (base : List Str) (part cp : Str)
    (hcp : cp = intercalateChar d base) (hbh : base.head? ≠ some ([] : Str)) :
    (if cp = [] then part else cp ++ d :: part) = intercalateChar d (base ++ [part]) := by
  by_cases hbase : base = []
  · subst hbase
    simp [hcp, intercalateChar]
  · have hcpne : cp ≠ [] := by
      rw [hcp]
      exact intercalateChar_ne_nil d base hbase hbh
    rw [if_neg hcpne, hcp, intercalateChar_concat d base part hbase]

/-- Inserting a delimiter-clean key preserves the path invariant of the
subtree. -/
theorem saneAt_addAux (d : Char) (k : Str) (ty : String) :
    ∀ (parts base : List Str) (cp : Str) (t : TreeNode),
      parts ≠ [] →
      (∀ s ∈ parts, d ∉ s) →
      (base = [] → parts.head? ≠ some ([] : Str)) →
      base.head? ≠ some ([] : Str) →
      cp = intercalateChar d base →
      intercalateChar d (base ++ parts) = k →
      SaneAt d base t →
      SaneAt d base (addKeyToTreeAux d k ty parts cp t) := by
  intro parts
  induction parts with
  | nil => intro base cp t h; exact absurd rfl h
  | cons part rest ih =>
    intro base cp t _ hfree hph hbh hcp hk hsane
    have hnp : (if cp = [] then part else cp ++ d :: part)
        = intercalateChar d (base ++ [part]) := newPath_eq d base part cp hcp hbh
    have hpartfree : d ∉ part := hfree part (by simp)
    have hpartne : base = [] → part ≠ [] := by
      intro hb
      have h2 := hph hb
      simp [List.head?] at h2
      exact h2
    cases rest with
    | nil =>
      rcases hf : findChild part t.children with _ | c
      · rw [addAux_single_none d k ty part cp t hf]
        intro p n hp hpne
        cases p with
        | nil => exact absurd rfl hpne
        | cons s qs =>
          by_cases hs : s = part
          · rw [hs] at hp ⊢
            rw [nodeAt_set_self] at hp
            cases qs with
            | nil =>
              rw [nodeAt_nil] at hp
              have hn := (Option.some_inj.mp hp).symm
              refine ⟨?_, ?_, ?_, ?_, ?_⟩
              · intro x hx
                rw [List.mem_singleton.mp hx]
                exact hpartfree
              · intro hb
                simp only [List.head?, ne_eq, Option.some.injEq]
                exact hpartne hb
              · rw [hn]
                simp
              · rw [hn]
                simpa using hnp
              · intro _
                rw [hn]
                simpa using hk.symm
            | cons q1 qs1 =>
              rw [nodeAt_fresh_cons] at hp
              cases hp
          · rw [nodeAt_set_other t part s _ qs hs] at hp
            exact hsane _ n hp hpne
      · rw [addAux_single_some d k ty part cp t c hf]
        have hnc : nodeAt t [part] = some c := by
          rw [nodeAt_cons_some t c part [] hf]
          exact nodeAt_nil c
        obtain ⟨_, _, hlastc, hidc, _⟩ := hsane [part] c hnc (by simp)
        have hcname : c.name = part := by
          simpa using hlastc.symm
        intro p n hp hpne
        cases p with
        | nil => exact absurd rfl hpne
        | cons s qs =>
          by_cases hs : s = part
          · rw [hs] at hp ⊢
            rw [nodeAt_set_self] at hp
            cases qs with
            | nil =>
              rw [nodeAt_nil] at hp
              have hn := (Option.some_inj.mp hp).symm
              refine ⟨?_, ?_, ?_, ?_, ?_⟩
              · intro x hx
                rw [List.mem_singleton.mp hx]
                exact hpartfree
              · intro hb
                simp only [List.head?, ne_eq, Option.some.injEq]
                exact hpartne hb
              · rw [hn]
                simp [hcname]
              · rw [hn]
                simpa using hidc
              · intro _
                rw [hn]
                simpa using hk.symm
            | cons q1 qs1 =>
              rw [nodeAt_promote_cons] at hp
              have hlift : nodeAt t (part :: q1 :: qs1) = some n := by
                rw [nodeAt_cons_some t c part (q1 :: qs1) hf]
                exact hp
              exact hsane _ n hlift (by simp)
          · rw [nodeAt_set_other t part s _ qs hs] at hp
            exact hsane _ n hp hpne
    | cons r2 rs =>
      have hrest : (r2 :: rs : List Str) ≠ [] := by simp
      have hbase2 : (base ++ [part]).head? ≠ some ([] : Str) := by
        cases base with
        | nil =>
          simp only [List.nil_append, List.head?, ne_eq, Option.some.injEq]
          exact hpartne rfl
        | cons b bs => simpa [List.head?] using hbh
      have hfree2 : ∀ s ∈ r2 :: rs, d ∉ s :=
        fun s hx => hfree s (List.mem_cons_of_mem part hx)
      have hk2 : intercalateChar d ((base ++ [part]) ++ (r2 :: rs)) = k := by
        rw [show (base ++ [part]) ++ (r2 :: rs) = base ++ part :: r2 :: rs from by simp]
        exact hk
      have hph2 : base ++ [part] = [] → (r2 :: rs).head? ≠ some ([] : Str) := by
        intro hb
        simp at hb
      rcases hf : findChild part t.children with _ | c
      · rw [addAux_cons2_none d k ty part (r2 :: rs) cp t hrest hf]
        have hsane2 := ih (base ++ [part]) (if cp = [] then part else cp ++ d :: part)
          (TreeNode.mk (if cp = [] then part else cp ++ d :: part) part k false ty [])
          hrest hfree2 hph2 hbase2 hnp hk2 (saneAt_leafless d _ _ _ _ false ty)
        intro p n hp hpne
        cases p with
        | nil => exact absurd rfl hpne
        | cons s qs =>
          by_cases hs : s = part
          · rw [hs] at hp ⊢
            rw [nodeAt_set_self] at hp
            cases qs with
            | nil =>
              rw [nodeAt_nil] at hp
              have hn := (Option.some_inj.mp hp).symm
              obtain ⟨f1, f2, f3, f4, f5⟩ := addKeyToTreeAux_fields d k ty (r2 :: rs)
                (if cp = [] then part else cp ++ d :: part)
                (TreeNode.mk (if cp = [] then part else cp ++ d :: part) part k false ty [])
              refine ⟨?_, ?_, ?_, ?_, ?_⟩
              · intro x hx
                rw [List.mem_singleton.mp hx]
                exact hpartfree
              · intro hb
                simp only [List.head?, ne_eq, Option.some.injEq]
                exact hpartne hb
              · rw [hn, f2]
                simp
              · rw [hn, f1]
                simpa using hnp
              · rw [hn, f4]
                intro hfalse
                simp at hfalse
            | cons q1 qs1 =>
              obtain ⟨g1, g2, g3, g4, g5⟩ := hsane2 (q1 :: qs1) n hp (by simp)
              refine ⟨?_, ?_, ?_, ?_, ?_⟩
              · intro x hx
                rcases List.mem_cons.mp hx with h | h
                · rw [h]
                  exact hpartfree
                · exact g1 x h
              · intro hb
                simp only [List.head?, ne_eq, Option.some.injEq]
                exact hpartne hb
              · rw [List.getLast?_cons_cons]
                exact g3
              · rw [show base ++ part :: q1 :: qs1 = (base ++ [part]) ++ (q1 :: qs1)
                    from by simp]
                exact g4
              · rw [show base ++ part :: q1 :: qs1 = (base ++ [part]) ++ (q1 :: qs1)
                    from by simp]
                exact g5
          · rw [nodeAt_set_other t part s _ qs hs] at hp
            exact hsane _ n hp hpne
      · rw [addAux_cons2_some d k ty part (r2 :: rs) cp t c hrest hf]
        have hnc : nodeAt t [part] = some c := by
          rw [nodeAt_cons_some t c part [] hf]
          exact nodeAt_nil c
        obtain ⟨_, _, hlastc, hidc, hfkc⟩ := hsane [part] c hnc (by simp)
        have hcname : c.name = part := by
          simpa using hlastc.symm
        have hsane2 := ih (base ++ [part]) (if cp = [] then part else cp ++ d :: part)
          c hrest hfree2 hph2 hbase2 hnp hk2 (saneAt_child d base t c part hf hsane)
        intro p n hp hpne
        cases p with
        | nil => exact absurd rfl hpne
        | cons s qs =>
          by_cases hs : s = part
          · rw [hs] at hp ⊢
            rw [nodeAt_set_self] at hp
            cases qs with
            | nil =>
              rw [nodeAt_nil] at hp
              have hn := (Option.some_inj.mp hp).symm
              obtain ⟨f1, f2, f3, f4, f5⟩ := addKeyToTreeAux_fields d k ty (r2 :: rs)
                (if cp = [] then part else cp ++ d :: part) c
              refine ⟨?_, ?_, ?_, ?_, ?_⟩
              · intro x hx
                rw [List.mem_singleton.mp hx]
                exact hpartfree
              · intro hb
                simp only [List.head?, ne_eq, Option.some.injEq]
                exact hpartne hb
              · rw [hn, f2]
                simp [hcname]
              · rw [hn, f1]
                simpa using hidc
              · rw [hn, f4]
                intro hckey
                rw [f3]
                simpa using hfkc hckey
            | cons q1 qs1 =>
              obtain ⟨g1, g2, g3, g4, g5⟩ := hsane2 (q1 :: qs1) n hp (by simp)
              refine ⟨?_, ?_, ?_, ?_, ?_⟩
              · intro x hx
                rcases List.mem_cons.mp hx with h | h
                · rw [h]
                  exact hpartfree
                · exact g1 x h
              · intro hb
                simp only [List.head?, ne_eq, Option.some.injEq]
                exact hpartne hb
              · rw [List.getLast?_cons_cons]
                exact g3
              · rw [show base ++ part :: q1 :: qs1 = (base ++ [part]) ++ (q1 :: qs1)
                    from by simp]
                exact g4
              · rw [show base ++ part :: q1 :: qs1 = (base ++ [part]) ++ (q1 :: qs1)
                    from by simp]
                exact g5
          · rw [nodeAt_set_other t part s _ qs hs] at hp
            exact hsane _ n hp hpne

theorem buildKeyTree_root_fields (d : Char) (V : List RedisKey) :
    (buildKeyTree d V).isKey = false ∧ (buildKeyTree d V).id = [] := by
  induction V using List.reverseRecOn with
  | nil => exact ⟨rfl, rfl⟩
  | append_singleton V x ih =>
    rw [buildKeyTree_concat]
    obtain ⟨f1, _, _, f4, _⟩ := addKeyToTreeAux_fields d x.key x.type
      (splitOnChar d x.key) [] (buildKeyTree d V)
    exact ⟨f4.trans ih.1, f1.trans ih.2⟩

/-- The path invariant holds for the whole tree built from a view whose keys
are nonempty and do not begin with the delimiter. -/
theorem sane_buildKeyTree (d : Char) (V : List RedisKey)
    (hgood : ∀ r ∈ V, r.key ≠ [] ∧ r.key.head? ≠ some d) :
    SaneAt d [] (buildKeyTree d V) := by
  induction V using List.reverseRecOn with
  | nil => exact saneAt_leafless d [] _ _ _ false "" 
  | append_singleton V x ih =>
    rw [buildKeyTree_concat]
    have hx := hgood x (by simp)
    refine saneAt_addAux d x.key x.type (splitOnChar d x.key) [] [] _
      (splitOnChar_ne_nil d x.key) (mem_splitOnChar_d_free d x.key)
      (fun _ => splitOnChar_head_ne_nil d x.key hx.1 hx.2) (by simp) rfl ?_ ?_
    · rw [List.nil_append]
      exact intercalateChar_splitOnChar d x.key
    · exact ih (fun r hr => hgood r (List.mem_append_left _ hr))

/-- Claim C2 (amended): for a view whose keys are nonempty and do not start
with the delimiter, every key node's ID is the delimiter-join of the segment
names from the root down to it and equals the full key it carries, every
node's name is the last segment of its path, and node IDs are unique (one
node per path). -/
theorem tree_path_invariant (d : Char) (V : List RedisKey)
    (hgood : ∀ r ∈ V, r.key ≠ [] ∧ r.key.head? ≠ some d) :
    (∀ p n, nodeAt (buildKeyTree d V) p = some n → n.isKey = true →
        n.id = intercalateChar d p ∧ n.fullKey = n.id) ∧
    (∀ p n, nodeAt (buildKeyTree d V) p = some n → p ≠ [] →
        p.getLast? = some n.name) ∧
    (∀ p1 p2 n1 n2, nodeAt (buildKeyTree d V) p1 = some n1 →
        nodeAt (buildKeyTree d V) p2 = some n2 → n1.id = n2.id → p1 = p2) := by
  have hsane := sane_buildKeyTree d V hgood
  have hroot := buildKeyTree_root_fields d V
  refine ⟨?_, ?_, ?_⟩
  · intro p n hp hk
    cases p with
    | nil =>
      rw [nodeAt_nil] at hp
      have hn := (Option.some_inj.mp hp).symm
      rw [hn] at hk
      rw [hroot.1] at hk
      cases hk
    | cons s qs =>
      obtain ⟨_, _, _, hid, hfk⟩ := hsane (s :: qs) n hp (by simp)
      rw [List.nil_append] at hid hfk
      exact ⟨hid, (hfk hk).trans hid.symm⟩
  · intro p n hp hpne
    exact (hsane p n hp hpne).2.2.1
  · intro p1 p2 n1 n2 h1 h2 hid
    cases p1 with
    | nil =>
      cases p2 with
      | nil => rfl
      | cons s2 q2 =>
        exfalso
        rw [nodeAt_nil] at h1
        have hn1 := (Option.some_inj.mp h1).symm
        obtain ⟨_, hh2, _, hid2, _⟩ := hsane (s2 :: q2) n2 h2 (by simp)
        rw [List.nil_append] at hid2
        have : n1.id = [] := by rw [hn1]; exact hroot.2
        rw [this] at hid
        exact intercalateChar_ne_nil d (s2 :: q2) (by simp) (hh2 rfl) (hid2.symm.trans hid.symm)
    | cons s1 q1 =>
      cases p2 with
      | nil =>
        exfalso
        rw [nodeAt_nil] at h2
        have hn2 := (Option.some_inj.mp h2).symm
        obtain ⟨_, hh1, _, hid1, _⟩ := hsane (s1 :: q1) n1 h1 (by simp)
        rw [List.nil_append] at hid1
        have : n2.id = [] := by rw [hn2]; exact hroot.2
        rw [this] at hid
        exact intercalateChar_ne_nil d (s1 :: q1) (by simp) (hh1 rfl) (hid1.symm.trans hid)
      | cons s2 q2 =>
        obtain ⟨hf1, _, _, hid1, _⟩ := hsane (s1 :: q1) n1 h1 (by simp)
        obtain ⟨hf2, _, _, hid2, _⟩ := hsane (s2 :: q2) n2 h2 (by simp)
        rw [List.nil_append] at hid1 hid2
        exact intercalateChar_injOn d (s1 :: q1) (s2 :: q2) (by simp) (by simp)
          hf1 hf2 (hid1.symm.trans (hid.trans hid2))

/-- Claim C2 counterexample: for the key ":a" (leading delimiter) the leaf
node's ID is "a", while the join of the segment names from the root — the
names "" and "a" — is ":a", which is also the full key; so the stated
ID-equals-join-equals-key invariant fails on the code as written. -/
theorem tree_path_counterexample :
    (nodeAt (buildKeyTree ':' [⟨":a".data, "string", -1⟩])
        [([] : Str), "a".data]).map TreeNode.isKey = some true ∧
    (nodeAt (buildKeyTree ':' [⟨":a".data, "string", -1⟩])
        [([] : Str), "a".data]).map TreeNode.id = some ("a".data) ∧
    (nodeAt (buildKeyTree ':' [⟨":a".data, "string", -1⟩])
        [([] : Str), "a".data]).map TreeNode.fullKey = some (":a".data) ∧
    intercalateChar ':' [([] : Str), "a".data] = ":a".data ∧
    ("a".data : Str) ≠ ":a".data := by
  refine ⟨rfl, rfl, rfl, rfl, by decide⟩

def cleanView : List RedisKey := [⟨"user:1".data, "string", -1⟩]

def leafW : TreeNode :=
  TreeNode.mk ("user:1".data) ("1".data) ("user:1".data) true "string" []

/-- Witness for the amended C2 at a concrete delimiter-clean view. -/
theorem tree_path_invariant_witness :
    TreeNode.id leafW = intercalateChar ':' ["user".data, "1".data] ∧
    TreeNode.fullKey leafW = TreeNode.id leafW :=
  (tree_path_invariant ':' cleanView (by decide)).1
    ["user".data, "1".data] leafW rfl rfl

/-! ## The browser state and the load coordinator (keys.go 590-657 and the
UI-triggered setters).  Ghost counters (inFlight, gen, errorDialogs,
recomputes, storeDeletes, deleteCallbacks) instrument spawned fetches,
snapshot replacements, error dialogs shown, filter recomputations, store
deletions and deletion callbacks; they change nothing observable. -/

structure KB where
  delim : Char
  hasClient : Bool
  isLoading : Bool
  keys : List RedisKey
  filteredKeys : List RedisKey
  scope : Str
  typeFilterSel : String
  searchText : Str
  treeView : Bool
  treeRoot : TreeNode
  selectedIndex : Int
  selectedKey : Str
  countLabel : String
  inFlight : Nat
  gen : Nat
  errorDialogs : Nat
  recomputes : Nat
  storeDeletes : Nat
  deleteCallbacks : Nat

def KB.filterState (s : KB) : FilterState :=
  ⟨s.scope, s.typeFilterSel, s.searchText⟩

def countMsg (n : Nat) : String := toString n ++ " keys"

/-- filterKeys as a state transformer: recompute the filtered view, update
the count label, and rebuild the tree when tree mode is active. -/
def doFilterKeys (s : KB) : KB :=
  let fk := filterKeys s.delim s.filterState s.keys
  { s with filteredKeys := fk,
           countLabel := countMsg fk.length,
           treeRoot := if s.treeView then buildKeyTree s.delim fk else s.treeRoot,
           recomputes := s.recomputes + 1 }

/-- loadKeysInternal up to the point where the fetch goroutine is spawned.
Returns the new state and whether a fetch was started. -/
def loadKeysInternal (silent : Bool) (s : KB) : KB × Bool :=
  if s.hasClient = false then
    ({ s with keys := [], filteredKeys := [],
              countLabel := countMsg 0,
              treeRoot := buildKeyTree s.delim [] }, false)
  else if s.isLoading = true then (s, false)
  else ({ s with isLoading := true, inFlight := s.inFlight + 1,
                 countLabel := if silent then s.countLabel else ("Loading...") }, true)

/-- The completion closure of loadKeysInternal, delivered on the control
thread: `none` is a failed enumeration, `some ks` a successful one. -/
def fetchComplete (silent : Bool) (res : Option (List RedisKey)) (s : KB) : KB :=
  let s1 := { s with isLoading := false, inFlight := s.inFlight - 1 }
  match res with
  | none => { s1 with countLabel := ("Error"),
                      errorDialogs := s1.errorDialogs + (if silent then 0 else 1) }
  | some ks => doFilterKeys { s1 with keys := ks, gen := s1.gen + 1 }

def setScope (sc : Str) (s : KB) : KB := doFilterKeys { s with scope := sc }

def clearScope (s : KB) : KB := doFilterKeys { s with scope := [] }

/-- Go strings.LastIndex for a single-character needle. -/
def lastIndexOfChar (d : Char) : Str → Int
  | [] => -1
  | c :: cs =>
    let r := lastIndexOfChar d cs
    if r ≥ 0 then r + 1 else if c = d then 0 else -1

/-- The scope path derived from the current selection by
setScopeFromSelection (empty when nothing applies). -/
def scopeFromSelectionPath (s : KB) : Str :=
  if s.treeView = true then
      if s.selectedKey = [] then []
      else
        match findById s.treeRoot s.selectedKey with
        | some node =>
          if node.isKey = true then
            let li := lastIndexOfChar s.delim s.selectedKey
            if li > 0 then s.selectedKey.take li.toNat else []
          else s.selectedKey
        | none => []
    else
      if 0 ≤ s.selectedIndex then
        match s.filteredKeys.get? s.selectedIndex.toNat with
        | some r =>
          let li := lastIndexOfChar s.delim r.key
          if li > 0 then r.key.take li.toNat else []
        | none => []
      else []

def setScopeFromSelection (s : KB) : KB :=
  if scopeFromSelectionPath s = [] then s
  else setScope (scopeFromSelectionPath s) s

def getSelectedKey (s : KB) : Option RedisKey :=
  if s.treeView = true then s.filteredKeys.find? (fun r => decide (r.key = s.selectedKey))
  else if 0 ≤ s.selectedIndex then s.filteredKeys.get? s.selectedIndex.toNat
  else none

/-- The list widget's OnSelected handler. -/
def listSelect (i : Nat) (s : KB) : KB :=
  match s.filteredKeys.get? i with
  | some r => { s with selectedIndex := (i : Int), selectedKey := r.key }
  | none => { s with selectedIndex := (i : Int) }

/-- The tree widget's OnSelected handler. -/
def treeSelect (uid : Str) (s : KB) : KB :=
  match findById s.treeRoot uid with
  | some _ => { s with selectedKey := uid }
  | none => s

def toggleView (s : KB) : KB :=
  let tv := !s.treeView
  { s with treeView := tv,
           treeRoot := if tv = true then buildKeyTree s.delim s.filteredKeys else s.treeRoot }

/-- The confirm-dialog part of deleteSelectedKey: `confirm` is the user's
dialog answer, `delOk` whether the store deletion succeeds. -/
def delConfirm (confirm delOk : Bool) (kd : Str) (s : KB) : KB :=
  if kd = [] then s
  else if confirm = false then s
  else if s.hasClient = false then s
  else if delOk = false then { s with errorDialogs := s.errorDialogs + 1 }
  else
    (loadKeysInternal false
      { s with storeDeletes := s.storeDeletes + 1,
               deleteCallbacks := s.deleteCallbacks + 1 }).1

def deleteSelectedKey (confirm delOk : Bool) (s : KB) : KB :=
  if s.treeView = true then
    match findById s.treeRoot s.selectedKey with
    | some node =>
      if node.isKey = false then s
      else delConfirm confirm delOk s.selectedKey s
    | none => delConfirm confirm delOk s.selectedKey s
  else
    if 0 ≤ s.selectedIndex then
      match s.filteredKeys.get? s.selectedIndex.toNat with
      | some r => delConfirm confirm delOk r.key s
      | none => s
    else s

/-- Clear() of the browser (used on disconnect). -/
def clearKB (s : KB) : KB :=
  let s1 := clearScope { s with keys := [], filteredKeys := [], selectedKey := [] }
  { s1 with countLabel := countMsg 0, selectedIndex := -1,
            treeRoot := buildKeyTree s1.delim s1.filteredKeys }

def kbInit : KB :=
  { delim := ':', hasClient := false, isLoading := false, keys := [],
    filteredKeys := [], scope := [], typeFilterSel := "All Types",
    searchText := [], treeView := false, treeRoot := rootNode,
    selectedIndex := -1, selectedKey := [], countLabel := countMsg 0,
    inFlight := 0, gen := 0, errorDialogs := 0, recomputes := 0,
    storeDeletes := 0, deleteCallbacks := 0 }

/-- Events delivered on the control thread. -/
inductive Ev : Type where
  | load (silent : Bool)
  | complete (silent : Bool) (res : Option (List RedisKey))
  | connect
  | disconnect
  | search (txt : Str)
  | setType (tf : String)
  | scopeSet (sc : Str)
  | scopeClear
  | scopeFromSel
  | selList (i : Nat)
  | selTree (uid : Str)
  | toggle
  | del (confirm delOk : Bool)

def step : Ev → KB → KB
  | .load silent, s => (loadKeysInternal silent s).1
  | .complete silent res, s => if s.inFlight = 0 then s else fetchComplete silent res s
  | .connect, s => { s with hasClient := true }
  | .disconnect, s => clearKB { s with hasClient := false }
  | .search txt, s => doFilterKeys { s with searchText := txt }
  | .setType tf, s => doFilterKeys { s with typeFilterSel := tf }
  | .scopeSet sc, s => setScope sc s
  | .scopeClear, s => clearScope s
  | .scopeFromSel, s => setScopeFromSelection s
  | .selList i, s => listSelect i s
  | .selTree uid, s => treeSelect uid s
  | .toggle, s => toggleView s
  | .del confirm delOk, s => deleteSelectedKey confirm delOk s

def run (evs : List Ev) (s : KB) : KB := evs.foldl (fun s e => step e s) s

/-- Invariant of the coordinator over all reachable browser states: the ghost
in-flight counter is 1 exactly while loading, and a loading state without a
client (only possible after a mid-flight disconnect) is fully cleared. -/
def CoordInv (s : KB) : Prop :=
  s.inFlight = (if s.isLoading = true then 1 else 0) ∧
  (s.isLoading = true → s.hasClient = false →
     s.keys = [] ∧ s.filteredKeys = [] ∧ s.countLabel = countMsg 0 ∧
     s.treeRoot = rootNode)

theorem coordInv_init : CoordInv kbInit := by
  refine ⟨rfl, ?_⟩
  intro h
  simp [kbInit] at h

theorem coordInv_doFilterKeys (s : KB) (h : CoordInv s) : CoordInv (doFilterKeys s) := by
  obtain ⟨h1, h2⟩ := h
  refine ⟨h1, ?_⟩
  intro hl hc
  obtain ⟨k1, k2, k3, k4⟩ := h2 hl hc
  refine ⟨k1, ?_, ?_, ?_⟩
  · show filterKeys s.delim s.filterState s.keys = []
    rw [k1]
    rfl
  · show countMsg (filterKeys s.delim s.filterState s.keys).length = countMsg 0
    rw [k1]
    rfl
  · show (if s.treeView = true then
        buildKeyTree s.delim (filterKeys s.delim s.filterState s.keys)
      else s.treeRoot) = rootNode
    rw [k1]
    cases htv : s.treeView
    · simpa using k4
    · rfl

theorem coordInv_load (silent : Bool) (s : KB) (h : CoordInv s) :
    CoordInv (loadKeysInternal silent s).1 := by
  obtain ⟨h1, h2⟩ := h
  by_cases hc : s.hasClient = false
  · simp only [loadKeysInternal, if_pos hc]
    exact ⟨h1, fun _ _ => ⟨rfl, rfl, rfl, rfl⟩⟩
  · by_cases hl : s.isLoading = true
    · simp only [loadKeysInternal, if_neg hc, if_pos hl]
      exact ⟨h1, h2⟩
    · simp only [loadKeysInternal, if_neg hc, if_neg hl]
      constructor
      · show s.inFlight + 1 = 1
        simp [hl] at h1
        omega
      · intro _ h2c
        exact absurd h2c hc

theorem coordInv_complete (silent : Bool) (res : Option (List RedisKey)) (s : KB)
    (h : CoordInv s) :
    CoordInv (if s.inFlight = 0 then s else fetchComplete silent res s) := by
  by_cases hz : s.inFlight = 0
  · rw [if_pos hz]
    exact h
  · rw [if_neg hz]
    obtain ⟨h1, h2⟩ := h
    have hl : s.isLoading = true := by
      by_contra hl2
      simp [hl2] at h1
      exact hz h1
    have hone : s.inFlight = 1 := by rw [h1, if_pos hl]
    cases res with
    | none =>
      refine ⟨?_, ?_⟩
      · show s.inFlight - 1 = (if False = true then 1 else 0)
        simp [hone]
      · intro hlf
        exact Bool.noConfusion hlf
    | some ks =>
      apply coordInv_doFilterKeys
      refine ⟨?_, ?_⟩
      · show s.inFlight - 1 = (if False = true then 1 else 0)
        simp [hone]
      · intro hlf
        exact Bool.noConfusion hlf

theorem coordInv_clearKB (s : KB)
    (h1 : s.inFlight = (if s.isLoading = true then 1 else 0)) :
    CoordInv (clearKB s) :=
  ⟨h1, fun _ _ => ⟨rfl, rfl, rfl, rfl⟩⟩

theorem coordInv_setScope (sc : Str) (s : KB) (h : CoordInv s) :
    CoordInv (setScope sc s) :=
  coordInv_doFilterKeys _ h

theorem coordInv_toggleView (s : KB) (h : CoordInv s) : CoordInv (toggleView s) := by
  obtain ⟨h1, h2⟩ := h
  refine ⟨h1, ?_⟩
  intro hl hc
  obtain ⟨k1, k2, k3, k4⟩ := h2 hl hc
  refine ⟨k1, k2, k3, ?_⟩
  show (if (!s.treeView) = true then buildKeyTree s.delim s.filteredKeys
      else s.treeRoot) = rootNode
  rw [k2]
  cases htv : s.treeView
  · simp [buildKeyTree]
  · simpa using k4

theorem coordInv_step (e : Ev) (s : KB) (h : CoordInv s) : CoordInv (step e s) := by
  cases e with
  | load silent => exact coordInv_load silent s h
  | complete silent res => exact coordInv_complete silent res s h
  | connect =>
    obtain ⟨h1, _⟩ := h
    refine ⟨h1, ?_⟩
    intro _ hc
    exact Bool.noConfusion hc
  | disconnect => exact coordInv_clearKB _ h.1
  | search txt => exact coordInv_doFilterKeys _ h
  | setType tf => exact coordInv_doFilterKeys _ h
  | scopeSet sc => exact coordInv_setScope sc s h
  | scopeClear => exact coordInv_doFilterKeys _ h
  | scopeFromSel =>
    show CoordInv (setScopeFromSelection s)
    unfold setScopeFromSelection
    split
    · exact h
    · exact coordInv_setScope _ s h
  | selList i =>
    show CoordInv (listSelect i s)
    unfold listSelect
    cases hget : s.filteredKeys.get? i <;> simp only [hget] <;> exact h
  | selTree uid =>
    show CoordInv (treeSelect uid s)
    unfold treeSelect
    cases hget : findById s.treeRoot uid <;> simp only [hget] <;> exact h
  | toggle => exact coordInv_toggleView s h
  | del confirm delOk =>
    show CoordInv (deleteSelectedKey confirm delOk s)
    unfold deleteSelectedKey
    have hdel : ∀ kd : Str, CoordInv (delConfirm confirm delOk kd s) := by
      intro kd
      unfold delConfirm
      split
      · exact h
      · split
        · exact h
        · split
          · exact h
          · split
            · exact h
            · exact coordInv_load false _ h
    split
    · cases hget : findById s.treeRoot s.selectedKey with
      | none => simp only [hget]; exact hdel _
      | some node =>
        simp only [hget]
        split
        · exact h
        · exact hdel _
    · split
      · cases hget : s.filteredKeys.get? s.selectedIndex.toNat with
        | none => simp only [hget]; exact h
        | some r => simp only [hget]; exact hdel _
      · exact h

theorem coordInv_run (evs : List Ev) : CoordInv (run evs kbInit) := by
  suffices hgen : ∀ (evs : List Ev) (s : KB), CoordInv s → CoordInv (run evs s) from
    hgen evs kbInit coordInv_init
  intro evs
  induction evs with
  | nil => intro s h; exact h
  | cons e evs ih =>
    intro s h
    exact ih (step e s) (coordInv_step e s h)

attribute [ext] KB

/-- In any reachable state with a fetch in flight, a further load request
returns the state unchanged and starts no fetch. -/
theorem loadDropped (s : KB) (h : CoordInv s) (hl : s.isLoading = true)
    (silent : Bool) : loadKeysInternal silent s = (s, false) := by
  by_cases hc : s.hasClient = false
  · obtain ⟨k1, k2, k3, k4⟩ := h.2 hl hc
    simp only [loadKeysInternal, if_pos hc, Prod.mk.injEq, and_true]
    exact KB.ext rfl rfl rfl k1.symm k2.symm rfl rfl rfl rfl k4.symm rfl rfl
      k3.symm rfl rfl rfl rfl rfl rfl
  · simp only [loadKeysInternal, if_neg hc, if_pos hl]

/-- Claim C5: while a fetch is in flight every additional load request
(visible or silent) is dropped without starting a fetch or changing any
state; the ghost in-flight counter never exceeds one in any reachable state;
and two LoadKeys calls issued during one in-flight fetch leave the state
untouched, so the following successful completion performs exactly one
snapshot replacement (one generation increment). -/
theorem loadKeys_single_flight :
    (∀ (evs : List Ev) (silent : Bool), (run evs kbInit).isLoading = true →
        loadKeysInternal silent (run evs kbInit) = (run evs kbInit, false)) ∧
    (∀ evs : List Ev, (run evs kbInit).inFlight ≤ 1) ∧
    (∀ (evs : List Ev) (b1 b2 b3 : Bool) (ks : List RedisKey),
        (run evs kbInit).isLoading = true →
        run [Ev.load b1, Ev.load b2] (run evs kbInit) = run evs kbInit ∧
        (run [Ev.load b1, Ev.load b2, Ev.complete b3 (some ks)] (run evs kbInit)).gen
            = (run evs kbInit).gen + 1) := by
  refine ⟨?_, ?_, ?_⟩
  · intro evs silent hl
    exact loadDropped _ (coordInv_run evs) hl silent
  · intro evs
    rw [(coordInv_run evs).1]
    split <;> omega
  · intro evs b1 b2 b3 ks hl
    have hinv := coordInv_run evs
    have hstep1 : step (Ev.load b1) (run evs kbInit) = run evs kbInit := by
      show (loadKeysInternal b1 (run evs kbInit)).1 = run evs kbInit
      rw [loadDropped _ hinv hl b1]
    have hstep2 : step (Ev.load b2) (run evs kbInit) = run evs kbInit := by
      show (loadKeysInternal b2 (run evs kbInit)).1 = run evs kbInit
      rw [loadDropped _ hinv hl b2]
    have hrun2 : run [Ev.load b1, Ev.load b2] (run evs kbInit) = run evs kbInit := by
      show step (Ev.load b2) (step (Ev.load b1) (run evs kbInit)) = run evs kbInit
      rw [hstep1, hstep2]
    refine ⟨hrun2, ?_⟩
    have hrun3 : run [Ev.load b1, Ev.load b2, Ev.complete b3 (some ks)]
        (run evs kbInit) = step (Ev.complete b3 (some ks)) (run evs kbInit) := by
      show step (Ev.complete b3 (some ks))
          (step (Ev.load b2) (step (Ev.load b1) (run evs kbInit)))
        = step (Ev.complete b3 (some ks)) (run evs kbInit)
      rw [hstep1, hstep2]
    rw [hrun3]
    show (if (run evs kbInit).inFlight = 0 then run evs kbInit
        else fetchComplete b3 (some ks) (run evs kbInit)).gen
      = (run evs kbInit).gen + 1
    have hone : (run evs kbInit).inFlight = 1 := by rw [hinv.1, if_pos hl]
    rw [if_neg (by omega)]
    rfl

/-- Witness for C5: after connecting and starting one load, a further silent
load request while the fetch is in flight is a no-op. -/
theorem loadKeys_single_flight_witness :
    loadKeysInternal true (run [Ev.connect, Ev.load false] kbInit)
      = (run [Ev.connect, Ev.load false] kbInit, false) :=
  loadKeys_single_flight.1 [Ev.connect, Ev.load false] true rfl

/-- Claim C6: a failed fetch leaves the snapshot, the filtered view and the
tree unchanged (no partial overwrite) and surfaces the error exactly once in
visible mode and never in silent mode; a successful fetch installs the new
snapshot (one generation bump) and triggers exactly one refiltering, with a
tree rebuild exactly when tree mode is active. -/
theorem fetchComplete_spec :
    ∀ (s : KB) (silent : Bool) (ks : List RedisKey),
      (fetchComplete silent none s).keys = s.keys ∧
      (fetchComplete silent none s).filteredKeys = s.filteredKeys ∧
      (fetchComplete silent none s).treeRoot = s.treeRoot ∧
      (fetchComplete silent none s).gen = s.gen ∧
      (fetchComplete silent none s).recomputes = s.recomputes ∧
      (fetchComplete silent none s).errorDialogs
          = s.errorDialogs + (if silent then 0 else 1) ∧
      (fetchComplete silent (some ks) s).keys = ks ∧
      (fetchComplete silent (some ks) s).gen = s.gen + 1 ∧
      (fetchComplete silent (some ks) s).errorDialogs = s.errorDialogs ∧
      (fetchComplete silent (some ks) s).filteredKeys
          = filterKeys s.delim s.filterState ks ∧
      (fetchComplete silent (some ks) s).recomputes = s.recomputes + 1 ∧
      (fetchComplete silent (some ks) s).treeRoot
          = (if s.treeView = true
             then buildKeyTree s.delim (filterKeys s.delim s.filterState ks)
             else s.treeRoot) := by
  intro s silent ks
  exact ⟨rfl, rfl, rfl, rfl, rfl, rfl, rfl, rfl, rfl, rfl, rfl, rfl⟩

/-! ## The search debounce (searchEntry.OnChanged, keys.go 95-106).
A state holds the entry text, the pending timer deadline (none when no timer
is pending) and the ghost list of recomputations performed, each recording
the pattern it used.  A keystroke at time t first fires a timer whose
deadline has already passed, then stops any pending timer and schedules a
new one at t + 300 (milliseconds). -/

structure DB where
  text : Str
  deadline : Option Nat
  recomputes : List Str

def fireDue (t : Nat) (s : DB) : DB :=
  match s.deadline with
  | some dl =>
    if dl ≤ t then { s with deadline := none, recomputes := s.recomputes ++ [s.text] }
    else s
  | none => s

def searchChanged (t : Nat) (txt : Str) (s : DB) : DB :=
  let s1 := fireDue t s
  { s1 with text := txt, deadline := some (t + 300) }

def runKeystrokes (ks : List (Nat × Str)) (s : DB) : DB :=
  ks.foldl (fun s k => searchChanged k.1 k.2 s) s

/-- The pending timer elapses uninterrupted. -/
def debounceFlush (s : DB) : DB :=
  match s.deadline with
  | some _ => { s with deadline := none, recomputes := s.recomputes ++ [s.text] }
  | none => s

theorem burst_aux : ∀ (ks : List (Nat × Str)) (t : Nat) (x : Str) (rec : List Str),
    List.Chain (fun a b => b.1 < a.1 + 300) (t, x) ks →
    runKeystrokes ks ⟨x, some (t + 300), rec⟩ =
      ⟨(ks.getLastD (t, x)).2, some ((ks.getLastD (t, x)).1 + 300), rec⟩ := by
  intro ks
  induction ks with
  | nil => intro t x rec _; rfl
  | cons k2 rest ih =>
    intro t x rec hch
    obtain ⟨t2, x2⟩ := k2
    rw [List.chain_cons] at hch
    have h1 : t2 < t + 300 := hch.1
    show runKeystrokes rest (searchChanged t2 x2 ⟨x, some (t + 300), rec⟩) = _
    have hsc : searchChanged t2 x2 ⟨x, some (t + 300), rec⟩ = ⟨x2, some (t2 + 300), rec⟩ := by
      simp [searchChanged, fireDue, Nat.not_le.mpr h1]
    rw [hsc, ih t2 x2 rec hch.2]
    have hl : ((t2, x2) :: rest).getLastD (t, x) = rest.getLastD (t2, x2) := by
      rw [List.getLastD_eq_getLast?, List.getLast?_cons]
      simp
    rw [hl]

/-- Claim C7: every search-input change cancels the pending debounce timer
and schedules recomputation 300ms later with the new text installed; a burst
of keystrokes each arriving strictly within 300ms of the previous one,
started with no timer pending, performs exactly one recomputation — after
the timer following the last keystroke elapses uninterrupted — and that
recomputation uses only the final pattern value. -/
theorem debounce_spec :
    (∀ (t : Nat) (txt : Str) (s : DB),
        (searchChanged t txt s).deadline = some (t + 300) ∧
        (searchChanged t txt s).text = txt) ∧
    (∀ (ks : List (Nat × Str)) (t : Nat) (x : Str) (s : DB),
        s.deadline = none →
        List.Chain (fun a b => b.1 < a.1 + 300) (t, x) ks →
        debounceFlush (runKeystrokes ((t, x) :: ks) s) =
          ⟨(ks.getLastD (t, x)).2, none,
            s.recomputes ++ [(ks.getLastD (t, x)).2]⟩) := by
  constructor
  · intro t txt s
    exact ⟨rfl, rfl⟩
  · intro ks t x s hdl hch
    obtain ⟨tx0, dl0, rec0⟩ := s
    cases dl0 with
    | some d => exact absurd hdl (by simp)
    | none =>
      show debounceFlush (runKeystrokes ks (searchChanged t x ⟨tx0, none, rec0⟩)) = _
      have h0 : searchChanged t x ⟨tx0, none, rec0⟩ = ⟨x, some (t + 300), rec0⟩ := rfl
      rw [h0, burst_aux ks t x rec0 hch]
      rfl

def dbInit : DB := ⟨[], none, []⟩

/-- Witness for C7: three keystrokes 100ms and 250ms apart produce exactly
one recomputation, with the final text. -/
theorem debounce_spec_witness :
    debounceFlush (runKeystrokes
        [(0, "a".data), (100, "ab".data), (350, "abc".data)] dbInit)
      = ⟨"abc".data, none, ["abc".data]⟩ :=
  debounce_spec.2 [(100, "ab".data), (350, "abc".data)] 0 ("a".data) dbInit rfl
    (List.Chain.cons (by decide) (List.Chain.cons (by decide) List.Chain.nil))

/-! ## Selection resolution (GetSelectedKey, keys.go 690-703) -/

def kbC8base : KB :=
  { kbInit with hasClient := true,
                keys := [⟨"a".data, "string", -1⟩, ⟨"b".data, "string", -1⟩],
                filteredKeys := [⟨"a".data, "string", -1⟩, ⟨"b".data, "string", -1⟩] }

/-- Select index 0 (the key "a") in the list, then refilter with pattern "b":
the view becomes just the "b" record while the remembered index stays 0. -/
def kbC8 : KB := doFilterKeys { (listSelect 0 kbC8base) with searchText := "b".data }

/-- Claim C8 counterexample: in list mode after refiltering, GetSelectedKey
returns the record now sitting at the remembered index — here the record of
"b" — although the previously selected key "a" is no longer present in the
FilteredView, where the claim demands none. -/
theorem getSelectedKey_counterexample :
    getSelectedKey kbC8 = some ⟨"b".data, "string", -1⟩ ∧
    kbC8.selectedKey = "a".data ∧
    (∀ r ∈ kbC8.filteredKeys, r.key ≠ "a".data) := by
  refine ⟨rfl, rfl, by decide⟩

/-- Claim C8 (amended): in tree mode GetSelectedKey returns a record of the
previously selected key exactly when one is still present in the current
FilteredView (the first such record), and none otherwise; in list mode it
returns whatever record sits at the remembered index in the current view —
not necessarily the previously selected key — and none when that index is
out of range. -/
theorem getSelectedKey_resolution :
    (∀ s : KB, s.treeView = true →
        ((getSelectedKey s = none ↔ ∀ r ∈ s.filteredKeys, r.key ≠ s.selectedKey) ∧
         (∀ r, getSelectedKey s = some r →
            r ∈ s.filteredKeys ∧ r.key = s.selectedKey))) ∧
    (∀ s : KB, s.treeView = false →
        (∀ (i : Nat) (h : i < s.filteredKeys.length), s.selectedIndex = (i : Int) →
            getSelectedKey s = some (s.filteredKeys.get ⟨i, h⟩)) ∧
        (s.selectedIndex < 0 ∨ (s.filteredKeys.length : Int) ≤ s.selectedIndex →
            getSelectedKey s = none)) := by
  constructor
  · intro s htv
    constructor
    · rw [show getSelectedKey s
          = s.filteredKeys.find? (fun r => decide (r.key = s.selectedKey)) from by
        simp [getSelectedKey, htv]]
      rw [List.find?_eq_none]
      constructor
      · intro h r hr
        have := h r hr
        simpa using this
      · intro h r hr
        simpa using h r hr
    · intro r hr
      rw [show getSelectedKey s
          = s.filteredKeys.find? (fun r => decide (r.key = s.selectedKey)) from by
        simp [getSelectedKey, htv]] at hr
      have h1 := List.find?_some hr
      have h2 := List.mem_of_find?_eq_some hr
      simp at h1
      exact ⟨h2, h1⟩
  · intro s htv
    constructor
    · intro i h hi
      rw [show getSelectedKey s
          = (if 0 ≤ s.selectedIndex then s.filteredKeys.get? s.selectedIndex.toNat
             else none) from by simp [getSelectedKey, htv]]
      rw [if_pos (by omega), hi]
      rw [show ((i : Int)).toNat = i from rfl]
      exact List.get?_eq_get h
    · intro hrange
      rw [show getSelectedKey s
          = (if 0 ≤ s.selectedIndex then s.filteredKeys.get? s.selectedIndex.toNat
             else none) from by simp [getSelectedKey, htv]]
      rcases hrange with hlt | hge
      · rw [if_neg (by omega)]
      · rw [if_pos (by omega)]
        exact List.get?_eq_none.mpr (by omega)

def kbC8tree : KB :=
  { kbInit with treeView := true,
                filteredKeys := [⟨"a".data, "string", -1⟩],
                selectedKey := "a".data }

/-- Witness for the amended C8: a still-present tree selection resolves to a
record, and the initial list state (index -1) resolves to none. -/
theorem getSelectedKey_resolution_witness :
    getSelectedKey kbC8tree ≠ none ∧ getSelectedKey kbInit = none := by
  constructor
  · intro h
    have h2 := (getSelectedKey_resolution.1 kbC8tree rfl).1.mp h
    exact h2 ⟨"a".data, "string", -1⟩ (by decide) rfl
  · exact (getSelectedKey_resolution.2 kbInit rfl).2 (Or.inl (by decide))

/-! ## Scope derivation from the selection (setScopeFromSelection,
keys.go 310-351) and deletion (deleteSelectedKey, keys.go 467-502) -/

theorem take_ne_nil (xs : Str) (n : Nat) (h1 : xs ≠ []) (h2 : n ≠ 0) :
    xs.take n ≠ [] := by
  cases xs with
  | nil => exact absurd rfl h1
  | cons c cs =>
    cases n with
    | zero => exact absurd rfl h2
    | succ m => simp [List.take]

def kbC9 : KB :=
  { kbInit with treeView := true,
                keys := [⟨"user".data, "string", -1⟩, ⟨"user:1".data, "string", -1⟩],
                filteredKeys := [⟨"user".data, "string", -1⟩,
                                 ⟨"user:1".data, "string", -1⟩],
                treeRoot := buildKeyTree ':'
                  [⟨"user".data, "string", -1⟩, ⟨"user:1".data, "string", -1⟩],
                selectedKey := "user".data }

/-- Claim C9 counterexample: the selection is a leaf ("user", a top-level
key with no delimiter in its ID), yet setScopeFromSelection changes nothing:
no scope is applied and the view is not recomputed, where the claim demands
that the derived scope be applied and the view recomputed for every
selection. -/
theorem setScopeFromSelection_counterexample :
    (findById kbC9.treeRoot kbC9.selectedKey).map TreeNode.isKey = some true ∧
    setScopeFromSelection kbC9 = kbC9 ∧
    (setScopeFromSelection kbC9).recomputes = kbC9.recomputes := by
  refine ⟨rfl, rfl, rfl⟩

/-- Claim C9 (amended): in tree mode, a key-node selection whose ID contains
the delimiter at a positive position gets everything before the last
delimiter as the new scope, applied with a recomputation; a folder selection
gets its own path; but a key-node selection with no delimiter occurrence (a
top-level key) is a no-op — no scope change and no recomputation.  In list
mode the selected record's key plays the role of the node ID.  Applying a
scope (setScope) installs it in the filter state, recomputes the view once,
and filters with the new scope. -/
theorem setScopeFromSelection_spec :
    (∀ (s : KB) (node : TreeNode), s.treeView = true →
        findById s.treeRoot s.selectedKey = some node → s.selectedKey ≠ [] →
        ((node.isKey = true → 0 < lastIndexOfChar s.delim s.selectedKey →
            setScopeFromSelection s =
              setScope (s.selectedKey.take
                (lastIndexOfChar s.delim s.selectedKey).toNat) s) ∧
         (node.isKey = true → lastIndexOfChar s.delim s.selectedKey ≤ 0 →
            setScopeFromSelection s = s) ∧
         (node.isKey = false → setScopeFromSelection s = setScope s.selectedKey s))) ∧
    (∀ (s : KB) (r : RedisKey), s.treeView = false → 0 ≤ s.selectedIndex →
        s.filteredKeys.get? s.selectedIndex.toNat = some r →
        ((0 < lastIndexOfChar s.delim r.key →
            setScopeFromSelection s =
              setScope (r.key.take (lastIndexOfChar s.delim r.key).toNat) s) ∧
         (lastIndexOfChar s.delim r.key ≤ 0 → setScopeFromSelection s = s))) ∧
    (∀ (sc : Str) (s : KB),
        (setScope sc s).scope = sc ∧
        (setScope sc s).recomputes = s.recomputes + 1 ∧
        (setScope sc s).filteredKeys =
          filterKeys s.delim ⟨sc, s.typeFilterSel, s.searchText⟩ s.keys) := by
  refine ⟨?_, ?_, ?_⟩
  · intro s node htv hfind hsk
    refine ⟨?_, ?_, ?_⟩
    · intro hkey hli
      have hpath : scopeFromSelectionPath s =
          s.selectedKey.take (lastIndexOfChar s.delim s.selectedKey).toNat := by
        simp [scopeFromSelectionPath, htv, hsk, hfind, hkey, hli]
      unfold setScopeFromSelection
      rw [hpath, if_neg (take_ne_nil _ _ hsk (by omega))]
    · intro hkey hli
      have hpath : scopeFromSelectionPath s = [] := by
        simp [scopeFromSelectionPath, htv, hsk, hfind, hkey, Int.not_lt.mpr hli]
      unfold setScopeFromSelection
      rw [hpath, if_pos rfl]
    · intro hkey
      have hpath : scopeFromSelectionPath s = s.selectedKey := by
        simp [scopeFromSelectionPath, htv, hsk, hfind, hkey]
      unfold setScopeFromSelection
      rw [hpath, if_neg hsk]
  · intro s r htv hidx hget
    have hkne : 0 < lastIndexOfChar s.delim r.key → r.key ≠ [] := by
      intro hli he
      rw [he] at hli
      simp [lastIndexOfChar] at hli
    have hget2 : s.filteredKeys[s.selectedIndex.toNat]? = some r := by
      rw [← List.get?_eq_getElem?]
      exact hget
    refine ⟨?_, ?_⟩
    · intro hli
      have hpath : scopeFromSelectionPath s =
          r.key.take (lastIndexOfChar s.delim r.key).toNat := by
        simp [scopeFromSelectionPath, htv, hidx, hget2, hli]
      unfold setScopeFromSelection
      rw [hpath, if_neg (take_ne_nil _ _ (hkne hli) (by omega))]
    · intro hli
      have hpath : scopeFromSelectionPath s = [] := by
        simp [scopeFromSelectionPath, htv, hidx, hget2, Int.not_lt.mpr hli]
      unfold setScopeFromSelection
      rw [hpath, if_pos rfl]
  · intro sc s
    exact ⟨rfl, rfl, rfl⟩

def kbC9w : KB :=
  { kbInit with treeView := true,
                filteredKeys := [⟨"user:1".data, "string", -1⟩],
                treeRoot := buildKeyTree ':' [⟨"user:1".data, "string", -1⟩],
                selectedKey := "user".data }

def folderW9 : TreeNode :=
  TreeNode.mk ("user".data) ("user".data) ("user:1".data) false "string"
    [("1".data, TreeNode.mk ("user:1".data) ("1".data) ("user:1".data) true "string" [])]

/-- Witness for the amended C9: selecting the folder "user" applies "user"
as the scope. -/
theorem setScopeFromSelection_spec_witness :
    setScopeFromSelection kbC9w = setScope ("user".data) kbC9w :=
  ((setScopeFromSelection_spec.1 kbC9w folderW9 rfl rfl (by decide)).2.2) rfl

/-- Claim C10: in tree mode, when the selected node exists but is a folder,
or when nothing is selected, deleteSelectedKey is a complete no-op: the
state is returned unchanged — in particular no store deletion is issued, no
deletion callback is invoked, no reload is started, and the snapshot,
filtered view, scope and selection are untouched.  This holds for every
dialog answer and every deletion outcome. -/
theorem deleteSelectedKey_noop :
    ∀ (s : KB) (confirm delOk : Bool), s.treeView = true →
      (s.selectedKey = [] ∨
        ∃ node, findById s.treeRoot s.selectedKey = some node ∧ node.isKey = false) →
      deleteSelectedKey confirm delOk s = s ∧
      (deleteSelectedKey confirm delOk s).storeDeletes = s.storeDeletes ∧
      (deleteSelectedKey confirm delOk s).deleteCallbacks = s.deleteCallbacks ∧
      (deleteSelectedKey confirm delOk s).isLoading = s.isLoading ∧
      (deleteSelectedKey confirm delOk s).keys = s.keys ∧
      (deleteSelectedKey confirm delOk s).filteredKeys = s.filteredKeys ∧
      (deleteSelectedKey confirm delOk s).scope = s.scope ∧
      (deleteSelectedKey confirm delOk s).selectedKey = s.selectedKey := by
  intro s confirm delOk htv hsel
  have hmain : deleteSelectedKey confirm delOk s = s := by
    unfold deleteSelectedKey
    rw [if_pos htv]
    rcases hsel with hemp | ⟨node, hfind, hkey⟩
    · rcases hfind2 : findById s.treeRoot s.selectedKey with _ | nd
      · simp only [hfind2]
        unfold delConfirm
        rw [if_pos hemp]
      · simp only [hfind2]
        by_cases hk : nd.isKey = false
        · rw [if_pos hk]
        · rw [if_neg hk]
          unfold delConfirm
          rw [if_pos hemp]
    · simp only [hfind]
      rw [if_pos hkey]
  exact ⟨hmain, by rw [hmain], by rw [hmain], by rw [hmain], by rw [hmain],
    by rw [hmain], by rw [hmain], by rw [hmain]⟩

def kbC10 : KB :=
  { kbInit with treeView := true,
                filteredKeys := [⟨"user:1".data, "string", -1⟩],
                treeRoot := buildKeyTree ':' [⟨"user:1".data, "string", -1⟩],
                selectedKey := "user".data }

def folderW10 : TreeNode :=
  TreeNode.mk ("user".data) ("user".data) ("user:1".data) false "string"
    [("1".data, TreeNode.mk ("user:1".data) ("1".data) ("user:1".data) true "string" [])]

/-- Witness for C10: deleting while the folder "user" is selected changes
nothing. -/
theorem deleteSelectedKey_noop_witness :
    deleteSelectedKey true true kbC10 = kbC10 :=
  (deleteSelectedKey_noop kbC10 true true rfl (Or.inr ⟨folderW10, rfl, rfl⟩)).1
